import Mathlib

/-!
# Verification of proktree's filtering-and-tree-rendering engine

Shallow embedding of the core of `proktree.go` (and the `Process` data model of
the platform file): the relationship builder, the filter engine
(`findMatchingPids`, `expandToAncestorsAndDescendants`, `filterProcesses`),
the tree renderer (`printProcessTree`) and the formatters
(`formatRSS`, `formatStartTime`, `formatCPUTime`, `centerText`, `truncateUser`).

Conventions of the embedding:
* Go `int` is `Int`; `time.Duration` is `Int` (nanoseconds).
* Go maps are modelled as functions (`Int → Option Process`, `Int → List Int`,
  `Int → Bool`); map-membership tests are `decide (· ∈ ·)` on the accumulated
  key lists where a list is kept.
* `float64` fields that are display-only (`pcpu`, `pmem`, `rss`) are modelled
  as exact rationals; `fmt`'s `%.1f` is modelled as rounding half away from
  zero on rationals.
* Functions that read ambient state in Go (the global `cli` configuration and
  the real-time clock used by `formatStartTime`) receive that state explicitly
  as an `Env` argument.
* The unbounded `for` loops of the Go source (the upward ancestor walk, the
  BFS queue loop, the recursive renderer) are given an explicit fuel
  parameter and return `none` / the empty output when the fuel runs out, so
  that divergence of the Go loop is expressible as `∀ fuel, … = none`.
-/

/-- UTF-8 encoded size of one character, in bytes. -/
def charUtf8Size (c : Char) : Nat :=
  if c.val < 0x80 then 1
  else if c.val < 0x800 then 2
  else if c.val < 0x10000 then 3
  else 4

/-- Go `len(s)` on a string: the number of bytes of its UTF-8 encoding. -/
def goLen (s : String) : Int :=
  ((s.data.foldl (fun n c => n + charUtf8Size c) 0 : Nat) : Int)

/-- Go `strings.Repeat(s, n)` (negative count behaves as zero here; the Go
source only calls it with non-negative counts). -/
def goRepeat (s : String) (n : Int) : String :=
  String.join (List.replicate n.toNat s)

/-- A run of `n` copies of a single character. -/
def charRun (c : Char) (n : Nat) : String :=
  String.mk (List.replicate n c)

/-- Decimal digits of a natural number, most significant first.  The fuel
argument makes the recursion structural; `natRepr` supplies enough fuel. -/
def natDigitsAux : Nat → Nat → List Char
  | 0, _ => []
  | fuel + 1, n =>
    if n < 10 then [Char.ofNat (48 + n)]
    else natDigitsAux fuel (n / 10) ++ [Char.ofNat (48 + n % 10)]

/-- Decimal representation of a natural number (`strconv` digits). -/
def natRepr (n : Nat) : String :=
  String.mk (natDigitsAux (n + 1) n)

/-- Go `strconv.Itoa` / `fmt %d` of an integer. -/
def intRepr (n : Int) : String :=
  if n < 0 then "-" ++ natRepr n.natAbs else natRepr n.toNat

/-- Space padding of a numeric string to a minimum width, as `fmt`'s `%5d`
does (fmt pads to byte width; digit strings are ASCII, so bytes = chars). -/
def goPadNum (w : Nat) (s : String) : String :=
  charRun ' ' (w - s.length) ++ s

/-- Go `fmt` `%0Wd`: zero padding to a minimum width; for a negative number
the sign leads and counts toward the width. -/
def goZeroPad (w : Nat) (n : Int) : String :=
  if n < 0 then
    let digits := natRepr n.natAbs
    "-" ++ charRun '0' (w - 1 - digits.length) ++ digits
  else
    let digits := natRepr n.toNat
    charRun '0' (w - digits.length) ++ digits

/-- Left space-padding of an arbitrary string to byte width `w` (`%*s`). -/
def goPadLeft (w : Int) (s : String) : String :=
  goRepeat " " (w - goLen s) ++ s

/-- Right space-padding of an arbitrary string to byte width `w` (`%-*s`). -/
def goPadRight (w : Int) (s : String) : String :=
  s ++ goRepeat " " (w - goLen s)

/-- Go `strings.Contains(s, sub)`: `sub` occurs as a contiguous substring of
`s`.  UTF-8 is self-synchronising, so Go's byte-level search coincides with
character-level infix occurrence. -/
def goContains (s sub : String) : Bool :=
  decide (sub.data <:+: s.data)

/-- Go `strings.HasPrefix(s, p)`. -/
def goStartsWith (s p : String) : Bool :=
  decide (p.data <+: s.data)

/-- One character of Go `strings.ToLower`, restricted to ASCII (the filter
strings and commands the claims concern; `unicode.ToLower` agrees on ASCII). -/
def goLowerChar (c : Char) : Char :=
  if 'A' ≤ c ∧ c ≤ 'Z' then Char.ofNat (c.toNat + 32) else c

/-- Go `strings.ToLower`. -/
def goToLower (s : String) : String :=
  String.mk (s.data.map goLowerChar)

/-- `fmt`'s `%.1f` on an exact rational: one digit after the decimal point,
rounding half away from zero (the exact tie behaviour of binary `float64`
is immaterial to every claim). -/
def goFmtFloat1 (q : Rat) : String :=
  let n : Int := if q < 0 then -(Rat.floor ((-q) * 10 + 1/2)) else Rat.floor (q * 10 + 1/2)
  let a := n.natAbs
  (if n < 0 then "-" else "") ++ natRepr (a / 10) ++ "." ++ natRepr (a % 10)

/-- A calendar instant, carrying both the absolute time (seconds) used for
`time.Sub` and the broken-down fields used by `time.Format`. -/
structure GoTime where
  unixSec : Int
  year : Int
  month : Nat
  day : Nat
  hour : Nat
  minute : Nat
deriving DecidableEq, Repr

/-- The ambient state the Go functions can read: the global `cli`
configuration flags used by the display layer, and the current clock time
(`time.Now()`) read by `formatStartTime`. -/
structure Env where
  now : GoTime
  showFullUser : Bool
  showFullCommand : Bool
deriving Repr

/-- `Process` (platform file): one process record. `cpuTime` is in
nanoseconds, like Go's `time.Duration`. -/
structure Process where
  pid : Int
  ppid : Int
  user : String
  cpuPct : Rat
  memPct : Rat
  rssKB : Rat
  startTime : Option GoTime
  cpuTime : Int
  command : String
deriving DecidableEq, Repr

/-- The four repeatable filter lists plus display flags of the `CLI` struct
(the display flags live in `Env` here, since the formatters read them from
the ambient configuration). -/
structure CLI where
  pids : List String
  users : List String
  searchStrings : List String
  searchStringsCase : List String
deriving Repr

/-- Month abbreviation used by Go's `Jan` format token. -/
def monthAbbrev : Nat → String
  | 1 => "Jan" | 2 => "Feb" | 3 => "Mar" | 4 => "Apr"
  | 5 => "May" | 6 => "Jun" | 7 => "Jul" | 8 => "Aug"
  | 9 => "Sep" | 10 => "Oct" | 11 => "Nov" | 12 => "Dec"
  | _ => "???"

/-- `formatStartTime` (proktree.go, lines 330-349).  Go reads `time.Now()`
here; the embedding receives the clock through `env`. -/
def formatStartTime (env : Env) (startTime : Option GoTime) : String :=
  match startTime with
  | none => "--"
  | some t =>
    if env.now.unixSec - t.unixSec < 86400 then
      goZeroPad 2 (t.hour : Int) ++ ":" ++ goZeroPad 2 (t.minute : Int)
    else if t.year = env.now.year then
      monthAbbrev t.month ++ goZeroPad 2 (t.day : Int)
    else
      goZeroPad 4 t.year

/-- `formatCPUTime` (proktree.go, lines 351-369).  `cpuTime` is nanoseconds;
`int(cpuTime.Seconds())` truncates toward zero, as `Int.tdiv` does. -/
def formatCPUTime (_env : Env) (cpuTime : Int) : String :=
  if cpuTime = 0 then "      --"
  else
    let totalSeconds := cpuTime.tdiv 1000000000
    let hours := totalSeconds.tdiv 3600
    let minutes := (totalSeconds.tmod 3600).tdiv 60
    let seconds := totalSeconds.tmod 60
    if 24 ≤ hours then
      goPadNum 5 (intRepr hours) ++ "hrs"
    else
      goZeroPad 2 hours ++ ":" ++ goZeroPad 2 minutes ++ ":" ++ goZeroPad 2 seconds

/-- `formatRSS` (proktree.go, lines 322-328). -/
def formatRSS (_env : Env) (rssKB : Rat) : String :=
  if 1048576 ≤ rssKB then goFmtFloat1 (rssKB / 1048576) ++ "G"
  else goFmtFloat1 (rssKB / 1024) ++ "M"

/-- `centerText` (proktree.go, lines 266-274). -/
def centerText (_env : Env) (text : String) (width : Int) : String :=
  let padding := width - goLen text
  if padding ≤ 0 then text
  else
    let leftPad := padding.tdiv 2
    let rightPad := padding - leftPad
    goRepeat " " leftPad ++ text ++ goRepeat " " rightPad

/-- The first `n` bytes of a string, Go's `s[:n]`; assumes the cut lands on a
character boundary, as it does for the ASCII usernames it is applied to. -/
def goTakeBytes (s : String) (n : Nat) : List Char → Nat → List Char
  | [], _ => []
  | c :: cs, taken =>
    if taken + charUtf8Size c ≤ n then c :: goTakeBytes s n cs (taken + charUtf8Size c)
    else []

/-- `truncateUser` (proktree.go, lines 276-284); reads `cli.ShowFullUser`. -/
def truncateUser (env : Env) (user : String) : String :=
  if env.showFullUser then user
  else if goLen user ≤ 10 then user
  else String.mk (goTakeBytes user 7 user.data 0) ++ "..."

/-! ## Relationship builder (main, proktree.go lines 60-88) -/

/-- The maps built by `main`'s relationship loop: `pidToProcess`,
`pidToChildren`, `skipPids`, and the `proktreePid` scratch variable. -/
structure BuildState where
  byPid : Int → Option Process
  children : Int → List Int
  skipPids : Int → Bool
  proktreePid : Int

/-- One iteration of the relationship loop (lines 67-79): insert into
`pidToProcess` (later records overwrite earlier ones with the same pid),
append to `pidToChildren` when `ppid > 0`, and mark any record whose command
contains `"proktree"` for skipping, remembering its pid. -/
def buildStep (st : BuildState) (p : Process) : BuildState :=
  let byPid := fun q => if q = p.pid then some p else st.byPid q
  let children :=
    if 0 < p.ppid then
      fun q => if q = p.ppid then st.children p.ppid ++ [p.pid] else st.children q
    else st.children
  if goContains p.command "proktree" then
    { byPid := byPid, children := children,
      skipPids := fun q => q = p.pid || st.skipPids q, proktreePid := p.pid }
  else
    { byPid := byPid, children := children,
      skipPids := st.skipPids, proktreePid := st.proktreePid }

/-- The initial empty maps, with `proktreePid = -1`. -/
def buildInit : BuildState :=
  { byPid := fun _ => none, children := fun _ => [],
    skipPids := fun _ => false, proktreePid := -1 }

/-- The relationship loop followed by the "skip ps children of proktree"
pass (lines 82-88): when a proktree pid was found, every direct child of it
whose command starts with `"ps "` is added to the skip set. -/
def buildProcessRelationships (records : List Process) : BuildState :=
  let st := records.foldl buildStep buildInit
  if 0 < st.proktreePid then
    let psKids := (st.children st.proktreePid).filter (fun c =>
      match st.byPid c with
      | some p => goStartsWith p.command "ps "
      | none => false)
    { st with skipPids := fun q => st.skipPids q || decide (q ∈ psKids) }
  else st

/-! ## Filter engine (proktree.go lines 371-481) -/

/-- `hasFilters` (line 373). -/
def hasFilters (f : CLI) : Bool :=
  !f.pids.isEmpty || !f.users.isEmpty || !f.searchStrings.isEmpty || !f.searchStringsCase.isEmpty

/-- One of the four inner loops of `findMatchingPids`: scan a predicate list
and record `pid` in the match set for every entry that fires (re-recording an
already-present pid is a no-op on a set; here it just duplicates). -/
def addMatches {α : Type} (pid : Int) (pred : α → Bool) (l : List α) (acc : List Int) : List Int :=
  l.foldl (fun a s => if pred s then pid :: a else a) acc

/-- The body of `findMatchingPids` (lines 402-440) over the map's value list:
skipped processes are passed over; otherwise all four predicate lists are
scanned. -/
def findMatchingPidsAux (skipPids : Int → Bool) (filters : CLI) :
    List Process → List Int → List Int
  | [], acc => acc
  | p :: ps, acc =>
    if skipPids p.pid then findMatchingPidsAux skipPids filters ps acc
    else
      let acc := addMatches p.pid (fun s => intRepr p.pid == s) filters.pids acc
      let acc := addMatches p.pid (fun u => p.user == u) filters.users acc
      let acc := addMatches p.pid (fun s => goContains p.command s) filters.searchStrings acc
      let acc := addMatches p.pid (fun s => goContains (goToLower p.command) (goToLower s))
        filters.searchStringsCase acc
      findMatchingPidsAux skipPids filters ps acc

/-- `findMatchingPids`: the match set, as the list of recorded pids. -/
def findMatchingPids (entries : List Process) (skipPids : Int → Bool) (filters : CLI) : List Int :=
  findMatchingPidsAux skipPids filters entries []

/-- The upward ancestor walk of `expandToAncestorsAndDescendants`
(lines 451-459): follow `ppid` links while the current pid is present and its
`ppid` is positive, recording every parent pid reached.  The Go loop is
unbounded and has no visited set; fuel exhaustion (`none`) represents the
loop still running. -/
def ancestorWalkFuel (byPid : Int → Option Process) : Nat → Int → List Int → Option (List Int)
  | 0, _, _ => none
  | fuel + 1, current, acc =>
    match byPid current with
    | some p =>
      if 0 < p.ppid then ancestorWalkFuel byPid fuel p.ppid (p.ppid :: acc)
      else some acc
    | none => some acc

/-- The inner `for _, child := range pidToChildren[current]` loop of the
descendant BFS (lines 470-476): unvisited children are recorded in the
display set, enqueued, and marked visited.  Returns the updated
(queue, visited, display) triple. -/
def bfsEnqueue : List Int → List Int → List Int → List Int →
    (List Int × List Int × List Int)
  | [], queue, visited, acc => (queue, visited, acc)
  | child :: cs, queue, visited, acc =>
    if child ∈ visited then bfsEnqueue cs queue visited acc
    else bfsEnqueue cs (queue ++ [child]) (child :: visited) (child :: acc)

/-- The BFS queue loop of the descendant expansion (lines 466-477).  The Go
loop runs until the queue empties; fuel exhaustion with a non-empty queue
returns `none`. -/
def bfsFuel (children : Int → List Int) : Nat → List Int → List Int → List Int → Option (List Int)
  | _, [], _, acc => some acc
  | 0, _ :: _, _, _ => none
  | fuel + 1, current :: rest, visited, acc =>
    let step := bfsEnqueue (children current) rest visited acc
    bfsFuel children fuel step.1 step.2.1 step.2.2

/-- The per-match body of `expandToAncestorsAndDescendants` (lines 446-477):
record the matched pid itself, walk up the ancestors, then BFS down the
descendants with a visited set seeded with the match. -/
def expandOne (byPid : Int → Option Process) (children : Int → List Int)
    (fuel : Nat) (pid : Int) (acc : List Int) : Option (List Int) :=
  match ancestorWalkFuel byPid fuel pid (pid :: acc) with
  | none => none
  | some acc1 => bfsFuel children fuel [pid] [pid] acc1

/-- The loop over all matched pids accumulating `pidsToShow`. -/
def expandAll (byPid : Int → Option Process) (children : Int → List Int)
    (fuel : Nat) : List Int → List Int → Option (List Int)
  | [], acc => some acc
  | m :: ms, acc =>
    match expandOne byPid children fuel m acc with
    | none => none
    | some acc' => expandAll byPid children fuel ms acc'

/-- `expandToAncestorsAndDescendants` (lines 443-481). -/
def expandToAncestorsAndDescendants (byPid : Int → Option Process)
    (children : Int → List Int) (fuel : Nat) (matchingPids : List Int) : Option (List Int) :=
  expandAll byPid children fuel matchingPids []

/-- `filterProcesses` (lines 372-399): with filters, the match set is
expanded into the display set and the roots are the displayed pids with
`ppid == 0`; without filters the display set is nil and the roots are the
pids whose `ppid` is 0 or whose parent is absent from `byPid`.  `entries` is
the value list of `pidToProcess`; the key of each map entry is its `pid`
field.  Returns `none` exactly when the expansion's ancestor walk is still
running at the given fuel. -/
def filterProcesses (entries : List Process) (byPid : Int → Option Process)
    (children : Int → List Int) (skipPids : Int → Bool) (filters : CLI) (fuel : Nat) :
    Option (List Int × Option (List Int)) :=
  if hasFilters filters then
    match expandToAncestorsAndDescendants byPid children fuel
        (findMatchingPids entries skipPids filters) with
    | none => none
    | some pidsToShow =>
      some ((entries.filter (fun p => p.ppid == 0 && decide (p.pid ∈ pidsToShow))).map (·.pid),
        some pidsToShow)
  else
    some ((entries.filter (fun p => p.ppid == 0 || (byPid p.ppid).isNone)).map (·.pid), none)

/-! ## Tree renderer (proktree.go lines 155-263) -/

/-- `pidsToShow == nil || pidsToShow[pid]` (line 168). -/
def showOk (pidsToShow : Option (List Int)) (pid : Int) : Bool :=
  match pidsToShow with
  | none => true
  | some l => decide (pid ∈ l)

/-- The "has non-skipped, displayed children" loop with early break
(lines 175-184). -/
def hasVisibleChildrenList (skipPids : Int → Bool) (pidsToShow : Option (List Int)) :
    List Int → Bool
  | [] => false
  | c :: cs =>
    if skipPids c then hasVisibleChildrenList skipPids pidsToShow cs
    else if showOk pidsToShow c then true
    else hasVisibleChildrenList skipPids pidsToShow cs

/-- Branch glyph selection (lines 186-204). -/
def branchFor (pre : String) (isLast hasChildren : Bool) : String :=
  if pre == "" then (if hasChildren then "─┬─" else "───")
  else if isLast then (if hasChildren then "└─┬─" else "└───")
  else (if hasChildren then "├─┬─" else "├───")

/-- Insertion of one element into a sorted list (ascending). -/
def insertSorted (x : Int) : List Int → List Int
  | [] => [x]
  | y :: ys => if x ≤ y then x :: y :: ys else y :: insertSorted x ys

/-- `sort.Ints` (ascending). -/
def sortInts (l : List Int) : List Int :=
  l.foldr insertSorted []

/-- The truncation step applied to an assembled output line
(lines 221-228): the outer guard compares the BYTE length of the line with
the terminal width, the inner guard and the cut operate on runes. -/
def truncateLine (showFullCommand : Bool) (termWidth : Int) (line : String) : String :=
  if !showFullCommand && decide (0 < termWidth) && decide (termWidth < goLen line)
      && decide (3 < termWidth) then
    if decide (termWidth - 3 < (line.length : Int)) then
      line.take (termWidth - 3).toNat ++ "..."
    else line
  else line

/-- Everything `printProcessTree` receives besides the current node: the
relationship maps, the display set, the column widths, the terminal width
and the ambient configuration. -/
structure RenderCtx where
  processes : Int → Option Process
  children : Int → List Int
  skipPids : Int → Bool
  pidsToShow : Option (List Int)
  maxUserLen : Int
  maxStartLen : Int
  maxTimeLen : Int
  termWidth : Int
  env : Env

/-- The fixed-width column portion plus tree graphic of one output line
(lines 213-218). -/
def renderLine (ctx : RenderCtx) (p : Process) (treeStr : String) : String :=
  goPadNum 7 (intRepr p.pid) ++ " " ++ goPadRight ctx.maxUserLen (truncateUser ctx.env p.user)
    ++ " " ++ goPadNum 5 (goFmtFloat1 p.cpuPct) ++ " " ++ goPadNum 5 (goFmtFloat1 p.memPct)
    ++ " " ++ goPadLeft 6 (formatRSS ctx.env p.rssKB)
    ++ "  " ++ goPadRight ctx.maxStartLen (formatStartTime ctx.env p.startTime)
    ++ "  " ++ goPadRight ctx.maxTimeLen (formatCPUTime ctx.env p.cpuTime)
    ++ "  " ++ treeStr ++ p.command

/-- The child loop of `printProcessTree` (lines 243-262): skipped children
are passed over entirely; each rendered child gets the recomputed prefix and
its last-sibling flag, and `render` is the recursive call at the remaining
fuel. -/
def kidsLoop (render : Int → String → Bool → List (Int × String)) (skipPids : Int → Bool)
    (pre : String) (isLast : Bool) (nonSkippedCount : Nat) :
    List Int → Nat → List (Int × String)
  | [], _ => []
  | c :: rest, printed =>
    if skipPids c then kidsLoop render skipPids pre isLast nonSkippedCount rest printed
    else
      let childPre := if pre == "" then " " else if isLast then pre ++ "  " else pre ++ "│ "
      render c childPre (printed + 1 == nonSkippedCount)
        ++ kidsLoop render skipPids pre isLast nonSkippedCount rest (printed + 1)

/-- `printProcessTree` (lines 155-263), producing the `(pid, line)` pairs
written to the output stream in order.  The Go recursion is unbounded on a
cyclic `children` map (see §9 of the spec); the fuel bounds the recursion
depth, with exhaustion producing no further lines. -/
def printProcessTree (ctx : RenderCtx) : Nat → Int → String → Bool → List (Int × String)
  | 0, _, _, _ => []
  | fuel + 1, pid, pre, isLast =>
    if ctx.skipPids pid then []
    else
      match ctx.processes pid with
      | none => []
      | some p =>
        let shouldDisplay := showOk ctx.pidsToShow pid
        let childPids := ctx.children pid
        let hasKids := hasVisibleChildrenList ctx.skipPids ctx.pidsToShow childPids
        let branch := branchFor pre isLast hasKids
        let treeStr := pre ++ branch
        let treeStr := if branch != "" then treeStr ++ " " else treeStr
        let line := truncateLine ctx.env.showFullCommand ctx.termWidth (renderLine ctx p treeStr)
        let selfLines := if shouldDisplay then [(pid, line)] else []
        let sorted := sortInts childPids
        let nonSkippedCount := (sorted.filter (fun c => !ctx.skipPids c)).length
        selfLines ++ kidsLoop (fun c cp l => printProcessTree ctx fuel c cp l)
          ctx.skipPids pre isLast nonSkippedCount sorted 0

/-! ## Specification-side relations and small graph constructors -/

/-- One upward step: `b` is the recorded parent pid of `a` (the record of `a`
is present and its `ppid` is positive); this is exactly the step the ancestor
walk takes. -/
def parentRel (byPid : Int → Option Process) (a b : Int) : Prop :=
  ∃ p, byPid a = some p ∧ p.ppid = b ∧ 0 < b

/-- One downward step: `b` is listed among the children of `a`. -/
def childRel (children : Int → List Int) (a b : Int) : Prop :=
  b ∈ children a

/-- A pid-keyed process map given by an association list (first hit wins;
the lists used below have distinct pids). -/
def byPidOfList (l : List Process) (q : Int) : Option Process :=
  l.find? (fun p => p.pid == q)

/-- A children map given by an association list. -/
def childrenOfList (l : List (Int × List Int)) (q : Int) : List Int :=
  match l.find? (fun e => e.1 == q) with
  | some e => e.2
  | none => []

/-! ## Characterization of the match set -/

/-- A process satisfies at least one entry of at least one of the four
predicate lists (the OR the spec describes). -/
def matchesAnyFilter (filters : CLI) (p : Process) : Prop :=
  (∃ s ∈ filters.pids, intRepr p.pid = s) ∨
  (∃ u ∈ filters.users, p.user = u) ∨
  (∃ s ∈ filters.searchStrings, goContains p.command s = true) ∨
  (∃ s ∈ filters.searchStringsCase, goContains (goToLower p.command) (goToLower s) = true)

theorem addMatches_mem {α : Type} (pid : Int) (pred : α → Bool) (l : List α)
    (acc : List Int) (q : Int) :
    q ∈ addMatches pid pred l acc ↔ q ∈ acc ∨ (q = pid ∧ ∃ s ∈ l, pred s = true) := by
  induction l generalizing acc with
  | nil => simp [addMatches]
  | cons s l ih =>
    simp only [addMatches, List.foldl_cons]
    by_cases hs : pred s
    · rw [if_pos hs]
      rw [show List.foldl (fun a s => if pred s then pid :: a else a) (pid :: acc) l
          = addMatches pid pred l (pid :: acc) from rfl, ih]
      simp only [List.mem_cons, hs]
      constructor
      · rintro ((h | h) | ⟨rfl, s', hs', hps'⟩)
        · exact Or.inr ⟨h, s, by simp [hs]⟩
        · exact Or.inl h
        · exact Or.inr ⟨rfl, s', by simp [hs'], hps'⟩
      · rintro (h | ⟨rfl, s', hs', hps'⟩)
        · exact Or.inl (Or.inr h)
        · rcases hs' with rfl | hmem
          · exact Or.inl (Or.inl rfl)
          · exact Or.inr ⟨rfl, s', hmem, hps'⟩
    · rw [if_neg hs]
      rw [show List.foldl (fun a s => if pred s then pid :: a else a) acc l
          = addMatches pid pred l acc from rfl, ih]
      constructor
      · rintro (h | ⟨rfl, s', hs', hps'⟩)
        · exact Or.inl h
        · exact Or.inr ⟨rfl, s', List.mem_cons_of_mem _ hs', hps'⟩
      · rintro (h | ⟨rfl, s', hs', hps'⟩)
        · exact Or.inl h
        · rcases List.mem_cons.mp hs' with rfl | hmem
          · exact absurd hps' (by simp [hs])
          · exact Or.inr ⟨rfl, s', hmem, hps'⟩

theorem findMatchingPidsAux_mem (skipPids : Int → Bool) (filters : CLI)
    (entries : List Process) (acc : List Int) (q : Int) :
    q ∈ findMatchingPidsAux skipPids filters entries acc ↔
      q ∈ acc ∨ ∃ p ∈ entries, p.pid = q ∧ skipPids p.pid = false ∧ matchesAnyFilter filters p := by
  induction entries generalizing acc with
  | nil => simp [findMatchingPidsAux]
  | cons p ps ih =>
    simp only [findMatchingPidsAux]
    by_cases hsk : skipPids p.pid
    · rw [if_pos hsk, ih]
      constructor
      · rintro (h | h)
        · exact Or.inl h
        · exact Or.inr (by
            obtain ⟨r, hr, hrest⟩ := h
            exact ⟨r, List.mem_cons_of_mem _ hr, hrest⟩)
      · rintro (h | ⟨r, hr, hpid, hns, hm⟩)
        · exact Or.inl h
        · rcases List.mem_cons.mp hr with rfl | hmem
          · rw [hsk] at hns; cases hns
          · exact Or.inr ⟨r, hmem, hpid, hns, hm⟩
    · rw [if_neg hsk, ih]
      simp only [addMatches_mem, beq_iff_eq]
      constructor
      · rintro (((((h | ⟨rfl, hc⟩) | ⟨rfl, hc⟩) | ⟨rfl, hc⟩) | ⟨rfl, hc⟩) | h)
        · exact Or.inl h
        · exact Or.inr ⟨p, List.mem_cons_self _ _, rfl, Bool.eq_false_iff.mpr hsk,
            Or.inl hc⟩
        · exact Or.inr ⟨p, List.mem_cons_self _ _, rfl, Bool.eq_false_iff.mpr hsk,
            Or.inr (Or.inl hc)⟩
        · exact Or.inr ⟨p, List.mem_cons_self _ _, rfl, Bool.eq_false_iff.mpr hsk,
            Or.inr (Or.inr (Or.inl hc))⟩
        · exact Or.inr ⟨p, List.mem_cons_self _ _, rfl, Bool.eq_false_iff.mpr hsk,
            Or.inr (Or.inr (Or.inr hc))⟩
        · exact Or.inr (by
            obtain ⟨r, hr, hrest⟩ := h
            exact ⟨r, List.mem_cons_of_mem _ hr, hrest⟩)
      · rintro (h | ⟨r, hr, hpid, hns, hm⟩)
        · exact Or.inl (Or.inl (Or.inl (Or.inl (Or.inl h))))
        · rcases List.mem_cons.mp hr with rfl | hmem
          · subst hpid
            rcases hm with hc | hc | hc | hc
            · exact Or.inl (Or.inl (Or.inl (Or.inl (Or.inr ⟨rfl, hc⟩))))
            · exact Or.inl (Or.inl (Or.inl (Or.inr ⟨rfl, hc⟩)))
            · exact Or.inl (Or.inl (Or.inr ⟨rfl, hc⟩))
            · exact Or.inl (Or.inr ⟨rfl, hc⟩)
          · exact Or.inr ⟨r, hmem, hpid, hns, hm⟩

theorem findMatchingPids_mem (entries : List Process) (skipPids : Int → Bool)
    (filters : CLI) (q : Int) :
    q ∈ findMatchingPids entries skipPids filters ↔
      ∃ p ∈ entries, p.pid = q ∧ skipPids p.pid = false ∧ matchesAnyFilter filters p := by
  rw [findMatchingPids, findMatchingPidsAux_mem]
  simp

/-! ## Characterization of the ancestor walk -/

theorem ancestorWalkFuel_mem (byPid : Int → Option Process) :
    ∀ (fuel : Nat) (cur : Int) (acc res : List Int),
      ancestorWalkFuel byPid fuel cur acc = some res →
      ∀ x, x ∈ res ↔ x ∈ acc ∨ Relation.TransGen (parentRel byPid) cur x := by
  intro fuel
  induction fuel with
  | zero => intro cur acc res h; cases h
  | succ fuel ih =>
    intro cur acc res h x
    rw [ancestorWalkFuel] at h
    cases hby : byPid cur with
    | none =>
      simp only [hby] at h
      cases h
      constructor
      · exact fun hx => Or.inl hx
      · rintro (hx | htg)
        · exact hx
        · obtain ⟨b, ⟨p', hp', _, _⟩, _⟩ := Relation.TransGen.head'_iff.mp htg
          rw [hby] at hp'; cases hp'
    | some p =>
      simp only [hby] at h
      by_cases hpp : 0 < p.ppid
      · rw [if_pos hpp] at h
        have step : parentRel byPid cur p.ppid := ⟨p, hby, rfl, hpp⟩
        have stepOnly : ∀ b, parentRel byPid cur b → b = p.ppid := by
          rintro b ⟨p', hp', hb, _⟩
          rw [hby] at hp'; cases hp'; exact hb.symm
        rw [ih p.ppid (p.ppid :: acc) res h x]
        constructor
        · rintro (hx | htg)
          · rcases List.mem_cons.mp hx with rfl | hmem
            · exact Or.inr (Relation.TransGen.single step)
            · exact Or.inl hmem
          · exact Or.inr (Relation.TransGen.head step htg)
        · rintro (hx | htg)
          · exact Or.inl (List.mem_cons_of_mem _ hx)
          · obtain ⟨b, hstep, hrest⟩ := Relation.TransGen.head'_iff.mp htg
            obtain rfl := stepOnly b hstep
            rcases Relation.reflTransGen_iff_eq_or_transGen.mp hrest with rfl | htg'
            · exact Or.inl (List.mem_cons_self _ _)
            · exact Or.inr htg'
      · rw [if_neg hpp] at h
        cases h
        constructor
        · exact fun hx => Or.inl hx
        · rintro (hx | htg)
          · exact hx
          · obtain ⟨b, ⟨p', hp', hb, hbpos⟩, _⟩ := Relation.TransGen.head'_iff.mp htg
            rw [hby] at hp'; cases hp'
            exact absurd (hb ▸ hbpos) hpp

theorem ancestorWalkFuel_mono (byPid : Int → Option Process) :
    ∀ (fuel fuel' : Nat) (cur : Int) (acc res : List Int), fuel ≤ fuel' →
      ancestorWalkFuel byPid fuel cur acc = some res →
      ancestorWalkFuel byPid fuel' cur acc = some res := by
  intro fuel
  induction fuel with
  | zero => intro fuel' cur acc res _ h; cases h
  | succ fuel ih =>
    intro fuel' cur acc res hle h
    obtain ⟨fuel'', rfl⟩ : ∃ k, fuel' = k + 1 := by
      cases fuel' with
      | zero => omega
      | succ k => exact ⟨k, rfl⟩
    rw [ancestorWalkFuel] at h ⊢
    cases hby : byPid cur with
    | none => simp only [hby] at h ⊢; exact h
    | some p =>
      simp only [hby] at h ⊢
      by_cases hpp : 0 < p.ppid
      · rw [if_pos hpp] at h ⊢
        exact ih fuel'' p.ppid _ res (by omega) h
      · rw [if_neg hpp] at h ⊢; exact h

theorem ancestorWalkFuel_isSome_acc (byPid : Int → Option Process) :
    ∀ (fuel : Nat) (cur : Int) (acc acc' : List Int),
      (ancestorWalkFuel byPid fuel cur acc).isSome = true →
      (ancestorWalkFuel byPid fuel cur acc').isSome = true := by
  intro fuel
  induction fuel with
  | zero => intro cur acc acc' h; simp [ancestorWalkFuel] at h
  | succ fuel ih =>
    intro cur acc acc' h
    rw [ancestorWalkFuel] at h ⊢
    cases hby : byPid cur with
    | none => simp [hby]
    | some p =>
      simp only [hby] at h ⊢
      by_cases hpp : 0 < p.ppid
      · rw [if_pos hpp] at h ⊢
        exact ih p.ppid _ _ h
      · rw [if_neg hpp]; simp

/-! ## Characterization of the descendant BFS -/

theorem bfsEnqueue_mem :
    ∀ (cs queue visited acc : List Int),
      (∀ x, x ∈ (bfsEnqueue cs queue visited acc).1 ↔
        x ∈ queue ∨ (x ∈ cs ∧ x ∉ visited)) ∧
      (∀ x, x ∈ (bfsEnqueue cs queue visited acc).2.1 ↔ x ∈ visited ∨ x ∈ cs) ∧
      (∀ x, x ∈ (bfsEnqueue cs queue visited acc).2.2 ↔
        x ∈ acc ∨ (x ∈ cs ∧ x ∉ visited)) := by
  intro cs
  induction cs with
  | nil => intro queue visited acc; simp [bfsEnqueue]
  | cons c cs ih =>
    intro queue visited acc
    rw [bfsEnqueue]
    by_cases hc : c ∈ visited
    · rw [if_pos hc]
      obtain ⟨hq, hv, ha⟩ := ih queue visited acc
      refine ⟨fun x => ?_, fun x => ?_, fun x => ?_⟩
      · rw [hq]
        constructor
        · rintro (h | ⟨h1, h2⟩)
          · exact Or.inl h
          · exact Or.inr ⟨List.mem_cons_of_mem _ h1, h2⟩
        · rintro (h | ⟨h1, h2⟩)
          · exact Or.inl h
          · rcases List.mem_cons.mp h1 with rfl | hm
            · exact absurd hc h2
            · exact Or.inr ⟨hm, h2⟩
      · rw [hv]
        constructor
        · rintro (h | h)
          · exact Or.inl h
          · exact Or.inr (List.mem_cons_of_mem _ h)
        · rintro (h | h)
          · exact Or.inl h
          · rcases List.mem_cons.mp h with rfl | hm
            · exact Or.inl hc
            · exact Or.inr hm
      · rw [ha]
        constructor
        · rintro (h | ⟨h1, h2⟩)
          · exact Or.inl h
          · exact Or.inr ⟨List.mem_cons_of_mem _ h1, h2⟩
        · rintro (h | ⟨h1, h2⟩)
          · exact Or.inl h
          · rcases List.mem_cons.mp h1 with rfl | hm
            · exact absurd hc h2
            · exact Or.inr ⟨hm, h2⟩
    · rw [if_neg hc]
      obtain ⟨hq, hv, ha⟩ := ih (queue ++ [c]) (c :: visited) (c :: acc)
      refine ⟨fun x => ?_, fun x => ?_, fun x => ?_⟩
      · rw [hq]
        simp only [List.mem_append, List.mem_cons, List.not_mem_nil, or_false]
        by_cases hxc : x = c
        · subst hxc; simp [hc]
        · tauto
      · rw [hv]
        simp only [List.mem_cons]
        tauto
      · rw [ha]
        simp only [List.mem_cons]
        by_cases hxc : x = c
        · subst hxc; simp [hc]
        · tauto

theorem bfsFuel_acc_mono (children : Int → List Int) :
    ∀ (fuel : Nat) (queue visited acc res : List Int),
      bfsFuel children fuel queue visited acc = some res → ∀ x ∈ acc, x ∈ res := by
  intro fuel
  induction fuel with
  | zero =>
    intro queue visited acc res h x hx
    cases queue with
    | nil => cases h; exact hx
    | cons c rest => cases h
  | succ fuel ih =>
    intro queue visited acc res h x hx
    cases queue with
    | nil => cases h; exact hx
    | cons c rest =>
      rw [bfsFuel] at h
      refine ih _ _ _ _ h x ?_
      exact ((bfsEnqueue_mem (children c) rest visited acc).2.2 x).mpr (Or.inl hx)

theorem bfsFuel_mono (children : Int → List Int) :
    ∀ (fuel fuel' : Nat) (queue visited acc res : List Int), fuel ≤ fuel' →
      bfsFuel children fuel queue visited acc = some res →
      bfsFuel children fuel' queue visited acc = some res := by
  intro fuel
  induction fuel with
  | zero =>
    intro fuel' queue visited acc res _ h
    cases queue with
    | nil => cases h; cases fuel' <;> rfl
    | cons c rest => cases h
  | succ fuel ih =>
    intro fuel' queue visited acc res hle h
    cases queue with
    | nil => cases h; cases fuel' <;> rfl
    | cons c rest =>
      obtain ⟨k, rfl⟩ : ∃ k, fuel' = k + 1 := by
        cases fuel' with
        | zero => omega
        | succ k => exact ⟨k, rfl⟩
      rw [bfsFuel] at h ⊢
      exact ih k _ _ _ _ (by omega) h

theorem bfsFuel_sound (children : Int → List Int) (R : Int → Prop)
    (hR : ∀ x, R x → ∀ c ∈ children x, R c) :
    ∀ (fuel : Nat) (queue visited acc res : List Int),
      bfsFuel children fuel queue visited acc = some res →
      (∀ s ∈ queue, R s) →
      ∀ x ∈ res, x ∈ acc ∨ R x := by
  intro fuel
  induction fuel with
  | zero =>
    intro queue visited acc res h hq x hx
    cases queue with
    | nil => cases h; exact Or.inl hx
    | cons c rest => cases h
  | succ fuel ih =>
    intro queue visited acc res h hq x hx
    cases queue with
    | nil => cases h; exact Or.inl hx
    | cons c rest =>
      rw [bfsFuel] at h
      obtain ⟨eq, ev, ea⟩ := bfsEnqueue_mem (children c) rest visited acc
      have hq' : ∀ s ∈ (bfsEnqueue (children c) rest visited acc).1, R s := by
        intro s hs
        rcases (eq s).mp hs with hs | ⟨hs, _⟩
        · exact hq s (List.mem_cons_of_mem _ hs)
        · exact hR c (hq c (List.mem_cons_self _ _)) s hs
      rcases ih _ _ _ _ h hq' x hx with hx' | hx'
      · rcases (ea x).mp hx' with hx'' | ⟨hx'', _⟩
        · exact Or.inl hx''
        · exact Or.inr (hR c (hq c (List.mem_cons_self _ _)) x hx'')
      · exact Or.inr hx'

theorem bfsFuel_complete (children : Int → List Int) (v0 : List Int) :
    ∀ (fuel : Nat) (queue visited acc res : List Int),
      bfsFuel children fuel queue visited acc = some res →
      (∀ s ∈ queue, s ∈ visited) →
      (∀ x ∈ visited, x ∈ queue ∨ ∀ c ∈ children x, c ∈ visited) →
      (∀ x ∈ visited, x ∈ acc ∨ x ∈ v0) →
      ∀ x ∈ visited, ∀ y, Relation.ReflTransGen (childRel children) x y →
        y ∈ res ∨ y ∈ v0 := by
  intro fuel
  induction fuel with
  | zero =>
    intro queue visited acc res h hqv hcov hva x hx y hpath
    cases queue with
    | nil =>
      cases h
      have hclosed : ∀ z ∈ visited, ∀ c ∈ children z, c ∈ visited := by
        intro z hz
        rcases hcov z hz with hv | hv
        · cases hv
        · exact hv
      have hyv : y ∈ visited := by
        induction hpath using Relation.ReflTransGen.head_induction_on with
        | refl => exact hx
        | head hstep _ ihp =>
          exact ihp (hclosed _ hx _ hstep)
      exact hva y hyv
    | cons c rest => cases h
  | succ fuel ih =>
    intro queue visited acc res h hqv hcov hva x hx y hpath
    cases queue with
    | nil =>
      cases h
      have hclosed : ∀ z ∈ visited, ∀ c ∈ children z, c ∈ visited := by
        intro z hz
        rcases hcov z hz with hv | hv
        · cases hv
        · exact hv
      have hyv : y ∈ visited := by
        induction hpath using Relation.ReflTransGen.head_induction_on with
        | refl => exact hx
        | head hstep _ ihp =>
          exact ihp (hclosed _ hx _ hstep)
      exact hva y hyv
    | cons c rest =>
      rw [bfsFuel] at h
      obtain ⟨eq, ev, ea⟩ := bfsEnqueue_mem (children c) rest visited acc
      refine ih _ _ _ _ h ?_ ?_ ?_ x ((ev x).mpr (Or.inl hx)) y hpath
      · intro s hs
        rcases (eq s).mp hs with hs | ⟨hs, _⟩
        · exact (ev s).mpr (Or.inl (hqv s (List.mem_cons_of_mem _ hs)))
        · exact (ev s).mpr (Or.inr hs)
      · intro z hz
        rcases (ev z).mp hz with hz' | hz'
        · rcases hcov z hz' with hzq | hzc
          · rcases List.mem_cons.mp hzq with rfl | hzrest
            · exact Or.inr (fun d hd => (ev d).mpr (Or.inr hd))
            · exact Or.inl ((eq z).mpr (Or.inl hzrest))
          · exact Or.inr (fun d hd => (ev d).mpr (Or.inl (hzc d hd)))
        · by_cases hzv : z ∈ visited
          · rcases hcov z hzv with hzq | hzc
            · rcases List.mem_cons.mp hzq with rfl | hzrest
              · exact Or.inr (fun d hd => (ev d).mpr (Or.inr hd))
              · exact Or.inl ((eq z).mpr (Or.inl hzrest))
            · exact Or.inr (fun d hd => (ev d).mpr (Or.inl (hzc d hd)))
          · exact Or.inl ((eq z).mpr (Or.inr ⟨hz', hzv⟩))
      · intro z hz
        rcases (ev z).mp hz with hz' | hz'
        · rcases hva z hz' with hza | hz0
          · exact Or.inl ((ea z).mpr (Or.inl hza))
          · exact Or.inr hz0
        · by_cases hzv : z ∈ visited
          · rcases hva z hzv with hza | hz0
            · exact Or.inl ((ea z).mpr (Or.inl hza))
            · exact Or.inr hz0
          · exact Or.inl ((ea z).mpr (Or.inr ⟨hz', hzv⟩))

/-! ## Characterization of the full expansion -/

theorem expandOne_mem (byPid : Int → Option Process) (children : Int → List Int)
    (fuel : Nat) (pid : Int) (acc res : List Int)
    (h : expandOne byPid children fuel pid acc = some res) :
    ∀ x, x ∈ res ↔ x ∈ acc ∨ Relation.TransGen (parentRel byPid) pid x ∨
      Relation.ReflTransGen (childRel children) pid x := by
  rw [expandOne] at h
  cases hwalk : ancestorWalkFuel byPid fuel pid (pid :: acc) with
  | none => rw [hwalk] at h; cases h
  | some acc1 =>
    rw [hwalk] at h
    have hanc := ancestorWalkFuel_mem byPid fuel pid (pid :: acc) acc1 hwalk
    have hsound := bfsFuel_sound children (Relation.ReflTransGen (childRel children) pid)
      (fun x hx c hc => Relation.ReflTransGen.tail hx hc)
      fuel [pid] [pid] acc1 res h
      (by intro s hs; rcases List.mem_singleton.mp hs with rfl; exact Relation.ReflTransGen.refl)
    have hmono := bfsFuel_acc_mono children fuel [pid] [pid] acc1 res h
    have hcomp := bfsFuel_complete children [pid] fuel [pid] [pid] acc1 res h
      (by intro s hs; exact hs)
      (by intro z hz; exact Or.inl hz)
      (by intro z hz; exact Or.inr hz)
    intro x
    constructor
    · intro hx
      rcases hsound x hx with hx1 | hx2
      · rcases (hanc x).mp hx1 with hx3 | hx3
        · rcases List.mem_cons.mp hx3 with rfl | hx4
          · exact Or.inr (Or.inr Relation.ReflTransGen.refl)
          · exact Or.inl hx4
        · exact Or.inr (Or.inl hx3)
      · exact Or.inr (Or.inr hx2)
    · rintro (hx | htg | hrtg)
      · exact hmono x ((hanc x).mpr (Or.inl (List.mem_cons_of_mem _ hx)))
      · exact hmono x ((hanc x).mpr (Or.inr htg))
      · rcases hcomp pid (List.mem_singleton.mpr rfl) x hrtg with hres | hpid
        · exact hres
        · rcases List.mem_singleton.mp hpid with rfl
          exact hmono x ((hanc x).mpr (Or.inl (List.mem_cons_self _ _)))

theorem expandOne_mono (byPid : Int → Option Process) (children : Int → List Int)
    (fuel fuel' : Nat) (pid : Int) (acc res : List Int) (hle : fuel ≤ fuel')
    (h : expandOne byPid children fuel pid acc = some res) :
    expandOne byPid children fuel' pid acc = some res := by
  rw [expandOne] at h ⊢
  cases hwalk : ancestorWalkFuel byPid fuel pid (pid :: acc) with
  | none => rw [hwalk] at h; cases h
  | some acc1 =>
    rw [hwalk] at h
    rw [ancestorWalkFuel_mono byPid fuel fuel' pid (pid :: acc) acc1 hle hwalk]
    exact bfsFuel_mono children fuel fuel' [pid] [pid] acc1 res hle h

theorem expandAll_mem (byPid : Int → Option Process) (children : Int → List Int)
    (fuel : Nat) :
    ∀ (ms acc res : List Int), expandAll byPid children fuel ms acc = some res →
      ∀ x, x ∈ res ↔ x ∈ acc ∨ ∃ m ∈ ms, Relation.TransGen (parentRel byPid) m x ∨
        Relation.ReflTransGen (childRel children) m x := by
  intro ms
  induction ms with
  | nil =>
    intro acc res h x
    cases h
    simp
  | cons m ms ih =>
    intro acc res h x
    rw [expandAll] at h
    cases hone : expandOne byPid children fuel m acc with
    | none => rw [hone] at h; cases h
    | some acc' =>
      rw [hone] at h
      rw [ih acc' res h x, expandOne_mem byPid children fuel m acc acc' hone x]
      constructor
      · rintro ((hx | hx | hx) | ⟨m', hm', hx⟩)
        · exact Or.inl hx
        · exact Or.inr ⟨m, List.mem_cons_self _ _, Or.inl hx⟩
        · exact Or.inr ⟨m, List.mem_cons_self _ _, Or.inr hx⟩
        · exact Or.inr ⟨m', List.mem_cons_of_mem _ hm', hx⟩
      · rintro (hx | ⟨m', hm', hx⟩)
        · exact Or.inl (Or.inl hx)
        · rcases List.mem_cons.mp hm' with rfl | hm''
          · rcases hx with hx | hx
            · exact Or.inl (Or.inr (Or.inl hx))
            · exact Or.inl (Or.inr (Or.inr hx))
          · exact Or.inr ⟨m', hm'', hx⟩

theorem expandAll_mono (byPid : Int → Option Process) (children : Int → List Int)
    (fuel fuel' : Nat) (hle : fuel ≤ fuel') :
    ∀ (ms acc res : List Int), expandAll byPid children fuel ms acc = some res →
      expandAll byPid children fuel' ms acc = some res := by
  intro ms
  induction ms with
  | nil => intro acc res h; cases h; rfl
  | cons m ms ih =>
    intro acc res h
    rw [expandAll] at h ⊢
    cases hone : expandOne byPid children fuel m acc with
    | none => rw [hone] at h; cases h
    | some acc' =>
      rw [hone] at h
      rw [expandOne_mono byPid children fuel fuel' m acc acc' hle hone]
      exact ih acc' res h

/-! ## C1: the display set is exactly the lineage closure of the matches -/

/-- **C1**: for every process graph and every match set, whenever the filter
engine's expansion completes, the display set it computes is exactly the
closure of the matched pids: a pid is displayed iff some matched pid equals
it, reaches it by following `ppid` links upward (ancestor), or reaches it by
following `childrenOf` edges downward (descendant); no pid outside that
closure is displayed. -/
theorem display_set_eq_lineage_closure (byPid : Int → Option Process)
    (children : Int → List Int) (fuel : Nat) (matchingPids S : List Int)
    (h : expandToAncestorsAndDescendants byPid children fuel matchingPids = some S)
    (x : Int) :
    x ∈ S ↔ ∃ m ∈ matchingPids, m = x ∨ Relation.TransGen (parentRel byPid) m x ∨
      Relation.TransGen (childRel children) m x := by
  rw [expandToAncestorsAndDescendants] at h
  rw [expandAll_mem byPid children fuel matchingPids [] S h x]
  simp only [List.not_mem_nil, false_or]
  constructor
  · rintro ⟨m, hm, hx | hx⟩
    · exact ⟨m, hm, Or.inr (Or.inl hx)⟩
    · rcases Relation.reflTransGen_iff_eq_or_transGen.mp hx with rfl | hx'
      · exact ⟨x, hm, Or.inl rfl⟩
      · exact ⟨m, hm, Or.inr (Or.inr hx')⟩
  · rintro ⟨m, hm, rfl | hx | hx⟩
    · exact ⟨m, hm, Or.inr Relation.ReflTransGen.refl⟩
    · exact ⟨m, hm, Or.inl hx⟩
    · exact ⟨m, hm, Or.inr (Relation.reflTransGen_iff_eq_or_transGen.mpr (Or.inr hx))⟩

/-- A three-process chain 1 ← 2 ← 3 used to exercise the expansion. -/
def lineageDemoProcs : List Process :=
  [⟨1, 0, "root", 0, 0, 0, none, 0, "one"⟩,
   ⟨2, 1, "root", 0, 0, 0, none, 0, "two"⟩,
   ⟨3, 2, "root", 0, 0, 0, none, 0, "three"⟩]

/-- The children map of the chain. -/
def lineageDemoKids : List (Int × List Int) :=
  [(1, [2]), (2, [3])]

/-- Witness for C1: on the chain with match set `{2}` the expansion completes
with display set `{3, 1, 2}`, and the closure characterization holds at the
ancestor pid 1. -/
theorem display_set_eq_lineage_closure_witness :
    expandToAncestorsAndDescendants (byPidOfList lineageDemoProcs)
        (childrenOfList lineageDemoKids) 10 [2] = some [3, 1, 2] ∧
      ((1 : Int) ∈ ([3, 1, 2] : List Int) ↔ ∃ m ∈ ([2] : List Int), m = 1 ∨
        Relation.TransGen (parentRel (byPidOfList lineageDemoProcs)) m 1 ∨
        Relation.TransGen (childRel (childrenOfList lineageDemoKids)) m 1) :=
  ⟨by decide, display_set_eq_lineage_closure (byPidOfList lineageDemoProcs)
    (childrenOfList lineageDemoKids) 10 [2] [3, 1, 2] (by decide) 1⟩

/-! ## C3: termination of the closure expansion -/

theorem bfsEnqueue_news :
    ∀ (cs queue visited acc : List Int),
      ∃ news : List Int,
        (bfsEnqueue cs queue visited acc).1 = queue ++ news ∧
        news.Nodup ∧
        (∀ x ∈ news, x ∈ cs ∧ x ∉ visited) ∧
        (∀ x, x ∈ (bfsEnqueue cs queue visited acc).2.1 ↔ x ∈ visited ∨ x ∈ news) := by
  intro cs
  induction cs with
  | nil =>
    intro queue visited acc
    exact ⟨[], by simp [bfsEnqueue], List.nodup_nil, by simp, by simp [bfsEnqueue]⟩
  | cons c cs ih =>
    intro queue visited acc
    rw [bfsEnqueue]
    by_cases hc : c ∈ visited
    · rw [if_pos hc]
      obtain ⟨news, h1, h2, h3, h4⟩ := ih queue visited acc
      exact ⟨news, h1, h2,
        fun x hx => ⟨List.mem_cons_of_mem _ (h3 x hx).1, (h3 x hx).2⟩, h4⟩
    · rw [if_neg hc]
      obtain ⟨news, h1, h2, h3, h4⟩ := ih (queue ++ [c]) (c :: visited) (c :: acc)
      refine ⟨c :: news, ?_, ?_, ?_, ?_⟩
      · rw [h1, List.append_assoc]; rfl
      · refine List.nodup_cons.mpr ⟨fun hcn => ?_, h2⟩
        exact (h3 c hcn).2 (List.mem_cons_self _ _)
      · intro x hx
        rcases List.mem_cons.mp hx with rfl | hx'
        · exact ⟨List.mem_cons_self _ _, hc⟩
        · obtain ⟨ha, hb⟩ := h3 x hx'
          exact ⟨List.mem_cons_of_mem _ ha, fun hv => hb (List.mem_cons_of_mem _ hv)⟩
      · intro x
        rw [h4 x]
        simp only [List.mem_cons]
        tauto

theorem bfsFuel_isSome (children : Int → List Int) (U : Finset Int)
    (hU : ∀ x y, y ∈ children x → y ∈ U) :
    ∀ (fuel : Nat) (queue visited acc : List Int),
      queue.length + (U \ visited.toFinset).card ≤ fuel →
      ∃ res, bfsFuel children fuel queue visited acc = some res := by
  intro fuel
  induction fuel with
  | zero =>
    intro queue visited acc hlen
    cases queue with
    | nil => exact ⟨acc, rfl⟩
    | cons c rest => simp at hlen
  | succ fuel ih =>
    intro queue visited acc hlen
    cases queue with
    | nil => exact ⟨acc, rfl⟩
    | cons c rest =>
      rw [bfsFuel]
      obtain ⟨news, h1, h2, h3, h4⟩ := bfsEnqueue_news (children c) rest visited acc
      refine ih _ _ _ ?_
      rw [h1]
      have hsub : news.toFinset ⊆ U \ visited.toFinset := by
        intro x hx
        rw [List.mem_toFinset] at hx
        obtain ⟨ha, hb⟩ := h3 x hx
        exact Finset.mem_sdiff.mpr ⟨hU c x ha, fun hv => hb (List.mem_toFinset.mp hv)⟩
      have hset : U \ (bfsEnqueue (children c) rest visited acc).2.1.toFinset
          = (U \ visited.toFinset) \ news.toFinset := by
        ext x
        simp only [Finset.mem_sdiff, List.mem_toFinset, h4 x]
        tauto
      have hcard : (U \ (bfsEnqueue (children c) rest visited acc).2.1.toFinset).card
          = (U \ visited.toFinset).card - news.length := by
        rw [hset, Finset.card_sdiff hsub, List.toFinset_card_of_nodup h2]
      have hle : news.length ≤ (U \ visited.toFinset).card := by
        calc news.length = news.toFinset.card := (List.toFinset_card_of_nodup h2).symm
          _ ≤ (U \ visited.toFinset).card := Finset.card_le_card hsub
      rw [hcard, List.length_append]
      simp only [List.length_cons] at hlen
      omega

/-- Two records whose `ppid` links form a 2-cycle: 1's parent is 2 and 2's
parent is 1. -/
def cycleDemoProcs : List Process :=
  [⟨1, 2, "root", 0, 0, 0, none, 0, "one"⟩,
   ⟨2, 1, "root", 0, 0, 0, none, 0, "two"⟩]

theorem cycleWalk_none :
    ∀ (fuel : Nat) (acc : List Int),
      ancestorWalkFuel (byPidOfList cycleDemoProcs) fuel 1 acc = none ∧
      ancestorWalkFuel (byPidOfList cycleDemoProcs) fuel 2 acc = none := by
  intro fuel
  induction fuel with
  | zero => intro acc; exact ⟨rfl, rfl⟩
  | succ fuel ih =>
    intro acc
    constructor
    · show ancestorWalkFuel (byPidOfList cycleDemoProcs) fuel 2 (2 :: acc) = none
      exact (ih (2 :: acc)).2
    · show ancestorWalkFuel (byPidOfList cycleDemoProcs) fuel 1 (1 :: acc) = none
      exact (ih (1 :: acc)).1

/-- Counterexample to **C3**: on the 2-cycle graph `1 ⇄ 2` (by `ppid`) with
match set `{1}`, the closure expansion never completes — the upward ancestor
walk has no visited set and loops forever, contradicting the claim that the
expansion terminates on every graph, cyclic ones included. -/
theorem ancestor_walk_diverges_on_ppid_cycle :
    ¬ ∃ (fuel : Nat) (S : List Int),
      expandToAncestorsAndDescendants (byPidOfList cycleDemoProcs)
        (childrenOfList []) fuel [1] = some S := by
  rintro ⟨fuel, S, h⟩
  rw [expandToAncestorsAndDescendants, expandAll, expandOne,
    (cycleWalk_none fuel [1]).1] at h
  cases h

/-- **C3** (amended): the descendant BFS of the closure expansion is
cycle-safe: whenever the `childrenOf` map has finite range and the upward
ancestor walk from each matched pid terminates (in particular whenever the
`ppid` chains from the matches are acyclic), the whole expansion terminates.
On a `ppid` cycle reachable from a match, the ancestor walk — which has no
visited set — does not terminate (see the counterexample). -/
theorem expansion_terminates_of_ancestor_walks_terminate
    (byPid : Int → Option Process) (children : Int → List Int) (U : Finset Int)
    (hU : ∀ x y, y ∈ children x → y ∈ U) (matching : List Int)
    (hanc : ∀ m ∈ matching, ∃ f, (ancestorWalkFuel byPid f m []).isSome = true) :
    ∃ fuel S, expandToAncestorsAndDescendants byPid children fuel matching = some S := by
  suffices h : ∃ F, ∀ acc, ∃ res, expandAll byPid children F matching acc = some res by
    obtain ⟨F, hF⟩ := h
    obtain ⟨res, hres⟩ := hF []
    exact ⟨F, res, hres⟩
  induction matching with
  | nil => exact ⟨0, fun acc => ⟨acc, rfl⟩⟩
  | cons m ms ih =>
    obtain ⟨f, hf⟩ := hanc m (List.mem_cons_self _ _)
    obtain ⟨F', hF'⟩ := ih (fun m' hm' => hanc m' (List.mem_cons_of_mem _ hm'))
    refine ⟨max (max f (1 + U.card)) F', fun acc => ?_⟩
    set F := max (max f (1 + U.card)) F' with hFdef
    have hwalk1 : (ancestorWalkFuel byPid f m (m :: acc)).isSome = true :=
      ancestorWalkFuel_isSome_acc byPid f m [] (m :: acc) hf
    obtain ⟨acc1, hacc1⟩ := Option.isSome_iff_exists.mp hwalk1
    have hwalkF : ancestorWalkFuel byPid F m (m :: acc) = some acc1 :=
      ancestorWalkFuel_mono byPid f F m (m :: acc) acc1 (by omega) hacc1
    have hbfs : ∃ res, bfsFuel children F [m] [m] acc1 = some res := by
      refine bfsFuel_isSome children U hU F [m] [m] acc1 ?_
      have : (U \ ([m] : List Int).toFinset).card ≤ U.card :=
        Finset.card_le_card (Finset.sdiff_subset)
      simp only [List.length_singleton]
      omega
    obtain ⟨acc2, hacc2⟩ := hbfs
    have hone : expandOne byPid children F m acc = some acc2 := by
      rw [expandOne]
      simp only [hwalkF]
      exact hacc2
    obtain ⟨res3, hres3⟩ := hF' acc2
    refine ⟨res3, ?_⟩
    rw [expandAll, hone]
    exact expandAll_mono byPid children F' F (by omega) ms acc2 res3 hres3

/-- A single root record used to witness the termination theorem. -/
def termDemoProcs : List Process :=
  [⟨1, 0, "root", 0, 0, 0, none, 0, "init"⟩]

/-- Witness for the amended C3: with an empty children map and the single
record `1` (ppid 0), the hypotheses hold concretely and the expansion
terminates. -/
theorem expansion_terminates_witness :
    ((∀ x y, y ∈ childrenOfList [] x → y ∈ (∅ : Finset Int)) ∧
      (∀ m ∈ ([1] : List Int), ∃ f,
        (ancestorWalkFuel (byPidOfList termDemoProcs) f m []).isSome = true)) ∧
    (∃ fuel S, expandToAncestorsAndDescendants (byPidOfList termDemoProcs)
      (childrenOfList []) fuel [1] = some S) := by
  have h1 : ∀ x y, y ∈ childrenOfList [] x → y ∈ (∅ : Finset Int) := by
    intro x y hy
    simp [childrenOfList] at hy
  have h2 : ∀ m ∈ ([1] : List Int), ∃ f,
      (ancestorWalkFuel (byPidOfList termDemoProcs) f m []).isSome = true := by
    intro m hm
    rcases List.mem_singleton.mp hm with rfl
    exact ⟨1, by decide⟩
  exact ⟨⟨h1, h2⟩, expansion_terminates_of_ancestor_walks_terminate
    (byPidOfList termDemoProcs) (childrenOfList []) ∅ h1 [1] h2⟩

/-! ## C4: OR semantics of the four filter predicate lists -/

/-- **C4**: the match set is the union over all predicates — a non-skipped
process is matched iff it satisfies at least one entry of at least one of the
four lists (exact pid string, exact user, case-sensitive command substring,
case-insensitive command substring); skipped processes are never matched; and
when all four lists are empty no match set is computed and the display set is
nil. -/
theorem match_set_is_predicate_union (entries : List Process)
    (byPid : Int → Option Process) (children : Int → List Int)
    (skipPids : Int → Bool) (filters : CLI) (fuel : Nat) (q : Int) :
    (q ∈ findMatchingPids entries skipPids filters ↔
      ∃ p ∈ entries, p.pid = q ∧ skipPids p.pid = false ∧
        ((∃ s ∈ filters.pids, intRepr p.pid = s) ∨
         (∃ u ∈ filters.users, p.user = u) ∨
         (∃ s ∈ filters.searchStrings, goContains p.command s = true) ∨
         (∃ s ∈ filters.searchStringsCase,
           goContains (goToLower p.command) (goToLower s) = true))) ∧
    (hasFilters filters = false →
      ∃ roots, filterProcesses entries byPid children skipPids filters fuel =
        some (roots, none)) := by
  constructor
  · rw [findMatchingPids_mem]
    simp only [matchesAnyFilter]
  · intro h
    refine ⟨(entries.filter (fun p => p.ppid == 0 || (byPid p.ppid).isNone)).map (·.pid), ?_⟩
    rw [filterProcesses, h]
    rfl

/-- Witness for C4: with all four lists empty, `hasFilters` is false and
`filterProcesses` returns a nil display set on the three-process chain. -/
theorem match_set_is_predicate_union_witness :
    hasFilters ⟨[], [], [], []⟩ = false ∧
    ∃ roots, filterProcesses lineageDemoProcs (byPidOfList lineageDemoProcs)
      (childrenOfList lineageDemoKids) (fun _ => false) ⟨[], [], [], []⟩ 5 =
        some (roots, none) :=
  ⟨by decide, (match_set_is_predicate_union lineageDemoProcs (byPidOfList lineageDemoProcs)
    (childrenOfList lineageDemoKids) (fun _ => false) ⟨[], [], [], []⟩ 5 0).2 (by decide)⟩

/-! ## C5: the root set -/

/-- A single matching record whose recorded parent (pid 99) is absent from
`byPid`. -/
def orphanDemoProcs : List Process :=
  [⟨5, 99, "u", 0, 0, 0, none, 0, "bash"⟩]

/-- Counterexample to **C5**: with the filter `pid=5` active, process 5
matches and is in the display set, its parent 99 is absent from `byPid` —
so by the claim ("pids whose ppid is 0 **or whose parent is not present in
byPid**, restricted to the display set") pid 5 should be a root — yet the
code's filtered root set requires `ppid == 0` exactly and comes out empty. -/
theorem filtered_roots_miss_orphaned_match :
    byPidOfList orphanDemoProcs 99 = none ∧
    filterProcesses orphanDemoProcs (byPidOfList orphanDemoProcs) (childrenOfList [])
      (fun _ => false) ⟨["5"], [], [], []⟩ 10 = some ([], some [99, 5]) ∧
    (5 : Int) ∈ ([99, 5] : List Int) := by
  refine ⟨by decide, by decide, by decide⟩

/-- **C5** (amended): without filters the root set is exactly the pids whose
`ppid` is 0 or whose parent is absent from `byPid`; with filters active the
root set is exactly the pids whose `ppid` is 0 — not those with an absent
parent — that are present in the display set. -/
theorem root_set_characterization (entries : List Process)
    (byPid : Int → Option Process) (children : Int → List Int)
    (skipPids : Int → Bool) (filters : CLI) (fuel : Nat)
    (roots : List Int) (shown : Option (List Int))
    (h : filterProcesses entries byPid children skipPids filters fuel = some (roots, shown))
    (q : Int) :
    (hasFilters filters = true →
      ∃ S, shown = some S ∧
        (q ∈ roots ↔ ∃ p ∈ entries, p.pid = q ∧ p.ppid = 0 ∧ p.pid ∈ S)) ∧
    (hasFilters filters = false →
      shown = none ∧
        (q ∈ roots ↔ ∃ p ∈ entries, p.pid = q ∧ (p.ppid = 0 ∨ byPid p.ppid = none))) := by
  rw [filterProcesses] at h
  constructor
  · intro hf
    rw [if_pos hf] at h
    cases hexp : expandToAncestorsAndDescendants byPid children fuel
        (findMatchingPids entries skipPids filters) with
    | none => rw [hexp] at h; cases h
    | some S =>
      rw [hexp] at h
      injection h with h1
      injection h1 with hroots hshown
      refine ⟨S, hshown.symm, ?_⟩
      rw [← hroots]
      simp only [List.mem_map, List.mem_filter, Bool.and_eq_true, beq_iff_eq,
        decide_eq_true_eq]
      constructor
      · rintro ⟨p, ⟨hp, hpp, hshow⟩, rfl⟩
        exact ⟨p, hp, rfl, hpp, hshow⟩
      · rintro ⟨p, hp, rfl, hpp, hshow⟩
        exact ⟨p, ⟨hp, hpp, hshow⟩, rfl⟩
  · intro hf
    rw [if_neg (by rw [hf]; exact Bool.false_ne_true)] at h
    injection h with h1
    injection h1 with hroots hshown
    refine ⟨hshown.symm, ?_⟩
    rw [← hroots]
    simp only [List.mem_map, List.mem_filter, Bool.or_eq_true, beq_iff_eq,
      Option.isNone_iff_eq_none]
    constructor
    · rintro ⟨p, ⟨hp, hpp⟩, rfl⟩
      exact ⟨p, hp, rfl, hpp⟩
    · rintro ⟨p, hp, rfl, hpp⟩
      exact ⟨p, ⟨hp, hpp⟩, rfl⟩

/-- Witness for the amended C5: on the orphan record, the filtered root set
characterization holds at pid 5 with the computed display set `{99, 5}`. -/
theorem root_set_characterization_witness :
    filterProcesses orphanDemoProcs (byPidOfList orphanDemoProcs) (childrenOfList [])
        (fun _ => false) ⟨["5"], [], [], []⟩ 10 = some ([], some [99, 5]) ∧
    ((hasFilters ⟨["5"], [], [], []⟩ = true →
      ∃ S, (some [99, 5] : Option (List Int)) = some S ∧
        ((5 : Int) ∈ ([] : List Int) ↔ ∃ p ∈ orphanDemoProcs, p.pid = 5 ∧ p.ppid = 0 ∧ p.pid ∈ S)) ∧
    (hasFilters ⟨["5"], [], [], []⟩ = false →
      (some [99, 5] : Option (List Int)) = none ∧
        ((5 : Int) ∈ ([] : List Int) ↔ ∃ p ∈ orphanDemoProcs, p.pid = 5 ∧
          (p.ppid = 0 ∨ byPidOfList orphanDemoProcs p.ppid = none)))) :=
  ⟨by decide, root_set_characterization orphanDemoProcs (byPidOfList orphanDemoProcs)
    (childrenOfList []) (fun _ => false) ⟨["5"], [], [], []⟩ 10 [] (some [99, 5])
    (by decide) 5⟩

/-! ## C6: line truncation -/

/-- Counterexample to **C6**: a line of 8 box-drawing characters has
displayable length 8 ≤ 10, so by the claim it must not be truncated at
terminal width 10 — but its UTF-8 byte length is 24 > 10, the outer guard
compares bytes, and the code truncates it to 7 characters plus `"..."`. -/
theorem truncation_fires_within_display_width :
    (("────────" : String).length : Int) ≤ 10 ∧
    truncateLine false 10 "────────" = "───────..." ∧
    truncateLine false 10 "────────" ≠ "────────" :=
  ⟨by decide, by decide, by decide⟩

/-- **C6** (amended): the assembled line is left unchanged whenever the
terminal width is unknown (`w ≤ 0`) or full-command mode is on; otherwise it
is replaced by its first `w - 3` characters plus a literal `"..."` exactly
when `w > 3`, the line's UTF-8 **byte** length exceeds `w`, and its character
count exceeds `w - 3`. -/
theorem truncation_condition_characterization (sfc : Bool) (w : Int) (line : String) :
    ((w ≤ 0 ∨ sfc = true) → truncateLine sfc w line = line) ∧
    (truncateLine sfc w line =
      if 3 < w ∧ w < goLen line ∧ w - 3 < (line.length : Int) ∧ sfc = false
      then line.take (w - 3).toNat ++ "..." else line) := by
  constructor
  · rintro (hw | hsfc)
    · rw [truncateLine]
      have h0 : decide (0 < w) = false := by simp; omega
      simp [h0]
    · rw [truncateLine, hsfc]
      simp
  · rw [truncateLine]
    cases sfc <;>
      by_cases h2 : 0 < w <;> by_cases h3 : w < goLen line <;> by_cases h4 : 3 < w <;>
      by_cases h5 : w - 3 < (line.length : Int) <;>
      simp [h2, h3, h4, h5] <;> omega

/-- Witness for the amended C6: at width 0 the line is never truncated. -/
theorem truncation_condition_characterization_witness :
    ((0 : Int) ≤ 0 ∨ false = true) ∧ truncateLine false 0 "hello" = "hello" :=
  ⟨Or.inl le_rfl, (truncation_condition_characterization false 0 "hello").1 (Or.inl le_rfl)⟩

/-! ## C7: formatCPUTime -/

/-- An arbitrary fixed environment (the formatters under C7 ignore it). -/
def anyEnv : Env :=
  ⟨⟨0, 1970, 1, 1, 0, 0⟩, false, false⟩

theorem natDigitsAux_length_le :
    ∀ (fuel n k : Nat), n < fuel → n < 10 ^ k → 1 ≤ k →
      (natDigitsAux fuel n).length ≤ k := by
  intro fuel
  induction fuel with
  | zero => intro n k hn _ _; omega
  | succ fuel ih =>
    intro n k hn hk h1
    rw [natDigitsAux]
    by_cases h10 : n < 10
    · rw [if_pos h10]
      simpa using h1
    · rw [if_neg h10]
      have hk2 : 2 ≤ k := by
        by_contra hcon
        have : k = 1 := by omega
        subst this
        simp at hk
        omega
      have hdiv : n / 10 < fuel := by
        have : n / 10 < n := Nat.div_lt_self (by omega) (by omega)
        omega
      have hpow : n / 10 < 10 ^ (k - 1) := by
        rw [Nat.div_lt_iff_lt_mul (by omega)]
        calc n < 10 ^ k := hk
          _ = 10 ^ (k - 1) * 10 := by
            rw [← Nat.pow_succ]
            congr 1
            omega
      have := ih (n / 10) (k - 1) hdiv hpow (by omega)
      rw [List.length_append]
      simp only [List.length_singleton]
      omega

theorem natRepr_length_le_five (n : Nat) (h : n < 100000) : (natRepr n).length ≤ 5 := by
  have h1 : (natDigitsAux (n + 1) n).length ≤ 5 :=
    natDigitsAux_length_le (n + 1) n 5 (Nat.lt_succ_self n) (by norm_num; omega) (by omega)
  have h2 : (natRepr n).length = (natDigitsAux (n + 1) n).length := rfl
  omega

theorem charRun_length (c : Char) (n : Nat) : (charRun c n).length = n := by
  show (List.replicate n c).length = n
  exact List.length_replicate n c

theorem goPadNum_length (w : Nat) (s : String) :
    (goPadNum w s).length = (w - s.length) + s.length := by
  rw [goPadNum, String.length_append, charRun_length]

/-- Counterexample to **C7**: at 100000 hours of CPU time the `%5d` verb
pads to a *minimum* of 5, so the output is `"100000hrs"` — 9 characters, not
the 8 the claim asserts for every duration with hours ≥ 24. -/
theorem formatCPUTime_hours_field_overflows_width :
    24 ≤ ((360000000000000000 : Int).tdiv 1000000000).tdiv 3600 ∧
    formatCPUTime anyEnv 360000000000000000 = "100000hrs" ∧
    (formatCPUTime anyEnv 360000000000000000).length ≠ 8 :=
  ⟨by decide, by decide, by decide⟩

/-- **C7** (amended): `formatCPUTime 0` is the 8-character placeholder;
`formatCPUTime` of 25 hours is `"   25hrs"` and of 1h2m3s is `"01:02:03"`;
for any non-zero duration, with the whole seconds decomposed into
hours/minutes/seconds, if hours ≥ 24 the output is the hours right-justified
to a minimum of 5 digits followed by `"hrs"` — 8 characters total only when
hours < 100000 (five digits suffice) — and otherwise the output is
zero-padded `HH:MM:SS`. -/
theorem formatCPUTime_formats (env : Env) (d : Int) (hd : d ≠ 0) :
    formatCPUTime env 0 = "      --" ∧
    formatCPUTime env 90000000000000 = "   25hrs" ∧
    formatCPUTime env 3723000000000 = "01:02:03" ∧
    (24 ≤ (d.tdiv 1000000000).tdiv 3600 →
      formatCPUTime env d = goPadNum 5 (intRepr ((d.tdiv 1000000000).tdiv 3600)) ++ "hrs" ∧
      ((d.tdiv 1000000000).tdiv 3600 < 100000 → (formatCPUTime env d).length = 8)) ∧
    ((d.tdiv 1000000000).tdiv 3600 < 24 →
      formatCPUTime env d = goZeroPad 2 ((d.tdiv 1000000000).tdiv 3600) ++ ":" ++
        goZeroPad 2 (((d.tdiv 1000000000).tmod 3600).tdiv 60) ++ ":" ++
        goZeroPad 2 ((d.tdiv 1000000000).tmod 60)) := by
  refine ⟨by rfl, by rfl, by rfl, ?_, ?_⟩
  · intro h24
    have heq : formatCPUTime env d
        = goPadNum 5 (intRepr ((d.tdiv 1000000000).tdiv 3600)) ++ "hrs" := by
      rw [formatCPUTime, if_neg hd, if_pos h24]
    refine ⟨heq, fun h5 => ?_⟩
    rw [heq, String.length_append, goPadNum_length]
    have hpos : ¬ ((d.tdiv 1000000000).tdiv 3600 < 0) := by omega
    rw [intRepr, if_neg hpos]
    have hlen : (natRepr ((d.tdiv 1000000000).tdiv 3600).toNat).length ≤ 5 :=
      natRepr_length_le_five _ (by omega)
    have h3 : ("hrs" : String).length = 3 := by decide
    omega
  · intro h24
    rw [formatCPUTime, if_neg hd, if_neg (by omega)]

/-- Witness for the amended C7 at the 25-hour duration. -/
theorem formatCPUTime_formats_witness :
    (90000000000000 : Int) ≠ 0 ∧
    (formatCPUTime anyEnv 0 = "      --" ∧
     formatCPUTime anyEnv 90000000000000 = "   25hrs" ∧
     formatCPUTime anyEnv 3723000000000 = "01:02:03" ∧
     (24 ≤ ((90000000000000 : Int).tdiv 1000000000).tdiv 3600 →
       formatCPUTime anyEnv 90000000000000
         = goPadNum 5 (intRepr (((90000000000000 : Int).tdiv 1000000000).tdiv 3600)) ++ "hrs" ∧
       (((90000000000000 : Int).tdiv 1000000000).tdiv 3600 < 100000 →
         (formatCPUTime anyEnv 90000000000000).length = 8)) ∧
     (((90000000000000 : Int).tdiv 1000000000).tdiv 3600 < 24 →
       formatCPUTime anyEnv 90000000000000
         = goZeroPad 2 (((90000000000000 : Int).tdiv 1000000000).tdiv 3600) ++ ":" ++
           goZeroPad 2 ((((90000000000000 : Int).tdiv 1000000000).tmod 3600).tdiv 60) ++ ":" ++
           goZeroPad 2 (((90000000000000 : Int).tdiv 1000000000).tmod 60))) :=
  ⟨by decide, formatCPUTime_formats anyEnv 90000000000000 (by decide)⟩

/-! ## C8: the skip set built by the relationship builder -/

/-- The last record (in input order) whose command contains `"proktree"` —
the record whose pid the builder's loop leaves in `proktreePid`. -/
def lastProkMatch : List Process → Option Process
  | [] => none
  | p :: ps =>
    match lastProkMatch ps with
    | some r => some r
    | none => if goContains p.command "proktree" then some p else none

theorem buildFold_skipPids (records : List Process) :
    ∀ (st : BuildState) (q : Int),
      ((records.foldl buildStep st).skipPids q = true ↔
        (∃ p ∈ records, p.pid = q ∧ goContains p.command "proktree" = true) ∨
        st.skipPids q = true) := by
  induction records with
  | nil => intro st q; simp
  | cons p ps ih =>
    intro st q
    rw [List.foldl_cons, ih (buildStep st p) q]
    by_cases hc : goContains p.command "proktree"
    · simp only [buildStep, hc, if_true]
      constructor
      · rintro (⟨r, hr, hrest⟩ | hsk)
        · exact Or.inl ⟨r, List.mem_cons_of_mem _ hr, hrest⟩
        · rcases Bool.or_eq_true_iff.mp hsk with hq | hq
          · exact Or.inl ⟨p, List.mem_cons_self _ _, (decide_eq_true_eq.mp hq).symm, hc⟩
          · exact Or.inr hq
      · rintro (⟨r, hr, hpid, hcr⟩ | hsk)
        · rcases List.mem_cons.mp hr with rfl | hmem
          · exact Or.inr (Bool.or_eq_true_iff.mpr (Or.inl (decide_eq_true (hpid.symm))))
          · exact Or.inl ⟨r, hmem, hpid, hcr⟩
        · exact Or.inr (Bool.or_eq_true_iff.mpr (Or.inr hsk))
    · simp only [buildStep, hc, if_false]
      constructor
      · rintro (⟨r, hr, hrest⟩ | hsk)
        · exact Or.inl ⟨r, List.mem_cons_of_mem _ hr, hrest⟩
        · exact Or.inr hsk
      · rintro (⟨r, hr, hpid, hcr⟩ | hsk)
        · rcases List.mem_cons.mp hr with rfl | hmem
          · exact absurd hcr (by simp [hc])
          · exact Or.inl ⟨r, hmem, hpid, hcr⟩
        · exact Or.inr hsk

theorem buildFold_proktreePid (records : List Process) :
    ∀ (st : BuildState),
      (records.foldl buildStep st).proktreePid =
        match lastProkMatch records with
        | some p => p.pid
        | none => st.proktreePid := by
  induction records with
  | nil => intro st; rfl
  | cons p ps ih =>
    intro st
    rw [List.foldl_cons, ih (buildStep st p)]
    cases hlast : lastProkMatch ps with
    | some r => simp [lastProkMatch, hlast]
    | none =>
      by_cases hc : goContains p.command "proktree"
      · simp [lastProkMatch, hlast, hc, buildStep]
      · simp [lastProkMatch, hlast, hc, buildStep]

theorem buildFold_children (records : List Process) :
    ∀ (st : BuildState) (x : Int),
      (records.foldl buildStep st).children x =
        st.children x ++ (records.filter (fun p => 0 < p.ppid && p.ppid == x)).map (·.pid) := by
  induction records with
  | nil => intro st x; simp
  | cons p ps ih =>
    intro st x
    rw [List.foldl_cons, ih (buildStep st p) x]
    have hkids : (buildStep st p).children =
        (if 0 < p.ppid then
          fun q => if q = p.ppid then st.children p.ppid ++ [p.pid] else st.children q
        else st.children) := by
      by_cases hc : goContains p.command "proktree" <;> simp [buildStep, hc]
    have hstep : (buildStep st p).children x
        = st.children x ++ (if 0 < p.ppid ∧ p.ppid = x then [p.pid] else []) := by
      rw [hkids]
      by_cases hpp : 0 < p.ppid
      · rw [if_pos hpp]
        by_cases hx : x = p.ppid
        · subst hx
          simp [hpp]
        · rw [if_neg hx, if_neg (fun h => hx h.2.symm)]
          simp
      · rw [if_neg hpp, if_neg (fun h => hpp h.1)]
        simp
    rw [hstep, List.append_assoc]
    congr 1
    rw [List.filter_cons]
    by_cases hpred : (0 < p.ppid ∧ p.ppid = x)
    · rw [if_pos ⟨hpred.1, hpred.2⟩,
        if_pos (Bool.and_eq_true_iff.mpr ⟨decide_eq_true hpred.1, beq_iff_eq.mpr hpred.2⟩)]
      simp
    · rw [if_neg hpred, if_neg (by
        intro hco
        rcases Bool.and_eq_true_iff.mp hco with ⟨h1, h2⟩
        exact hpred ⟨decide_eq_true_eq.mp h1, beq_iff_eq.mp h2⟩)]
      simp

/-- The last record with a given pid — the value a Go map lookup returns
after all inserts. -/
def lastWithPid (x : Int) : List Process → Option Process
  | [] => none
  | p :: ps =>
    match lastWithPid x ps with
    | some r => some r
    | none => if p.pid == x then some p else none

theorem buildFold_byPid (records : List Process) :
    ∀ (st : BuildState) (x : Int),
      (records.foldl buildStep st).byPid x =
        match lastWithPid x records with
        | some p => some p
        | none => st.byPid x := by
  induction records with
  | nil => intro st x; rfl
  | cons p ps ih =>
    intro st x
    rw [List.foldl_cons, ih (buildStep st p) x]
    cases hlast : lastWithPid x ps with
    | some r => simp [lastWithPid, hlast]
    | none =>
      have hstep : (buildStep st p).byPid x
          = if x = p.pid then some p else st.byPid x := by
        by_cases hc : goContains p.command "proktree" <;> simp [buildStep, hc]
      simp only [lastWithPid, hlast, hstep]
      by_cases hx : x = p.pid
      · simp [hx]
      · rw [if_neg hx]
        have hxx : ¬ (p.pid = x) := fun h => hx h.symm
        simp [hxx]

theorem buildRel_children_eq (records : List Process) :
    (buildProcessRelationships records).children
      = (records.foldl buildStep buildInit).children := by
  by_cases h : 0 < (records.foldl buildStep buildInit).proktreePid <;>
    simp [buildProcessRelationships, h]

theorem buildRel_byPid_eq (records : List Process) :
    (buildProcessRelationships records).byPid
      = (records.foldl buildStep buildInit).byPid := by
  by_cases h : 0 < (records.foldl buildStep buildInit).proktreePid <;>
    simp [buildProcessRelationships, h]

theorem buildRel_proktreePid_eq (records : List Process) :
    (buildProcessRelationships records).proktreePid
      = (records.foldl buildStep buildInit).proktreePid := by
  by_cases h : 0 < (records.foldl buildStep buildInit).proktreePid <;>
    simp [buildProcessRelationships, h]

/-- Two records both containing the tool's name; the claim designates the
first (pid 10) as the invoker and says only it is skipped among the
name-matching records. -/
def doubleProkProcs : List Process :=
  [⟨10, 0, "u", 0, 0, 0, none, 0, "proktree"⟩,
   ⟨20, 0, "u", 0, 0, 0, none, 0, "proktree -u root"⟩]

/-- Counterexample to **C8**: with two records whose commands contain
`"proktree"`, the builder adds BOTH pids to the skip set (the claim says only
the first matching pid is added), and `proktreePid` — the pid whose `ps `
children get skipped — ends up as the LAST match (20), not the first (10). -/
theorem all_name_matching_pids_are_skipped :
    (buildProcessRelationships doubleProkProcs).skipPids 10 = true ∧
    (buildProcessRelationships doubleProkProcs).skipPids 20 = true ∧
    (buildProcessRelationships doubleProkProcs).proktreePid = 20 :=
  ⟨by decide, by decide, by decide⟩

/-- **C8** (amended): a pid is in the builder's skip set iff it is the pid of
SOME record whose command contains `"proktree"` (every name-matching record
is skipped, not only the first), or it is a direct child of the LAST
name-matching record's pid whose own command starts with `"ps "`; no other
pid is skipped.  The invoker pid recorded for the ps-child scan is that of
the last name-matching record, or -1 when there is none. -/
theorem skip_set_characterization (records : List Process) (q : Int) :
    ((buildProcessRelationships records).skipPids q = true ↔
      (∃ p ∈ records, p.pid = q ∧ goContains p.command "proktree" = true) ∨
      (∃ pk, lastProkMatch records = some pk ∧ 0 < pk.pid ∧
        q ∈ (buildProcessRelationships records).children pk.pid ∧
        ∃ p', (buildProcessRelationships records).byPid q = some p' ∧
          goStartsWith p'.command "ps " = true)) ∧
    (buildProcessRelationships records).proktreePid =
      (match lastProkMatch records with | some p => p.pid | none => -1) := by
  have hpk : (records.foldl buildStep buildInit).proktreePid =
      (match lastProkMatch records with | some p => p.pid | none => -1) :=
    buildFold_proktreePid records buildInit
  have hfold : ∀ r : Int, ((records.foldl buildStep buildInit).skipPids r = true ↔
      (∃ p ∈ records, p.pid = r ∧ goContains p.command "proktree" = true)) := by
    intro r
    rw [buildFold_skipPids records buildInit r]
    simp [buildInit]
  refine ⟨?_, (buildRel_proktreePid_eq records).trans hpk⟩
  rw [buildRel_children_eq, buildRel_byPid_eq]
  by_cases h0 : 0 < (records.foldl buildStep buildInit).proktreePid
  · obtain ⟨pk, hlast, hpid⟩ : ∃ pk, lastProkMatch records = some pk ∧
        pk.pid = (records.foldl buildStep buildInit).proktreePid := by
      cases hl : lastProkMatch records with
      | some r => exact ⟨r, rfl, by rw [hpk, hl]⟩
      | none => rw [hpk, hl] at h0; exact absurd h0 (by decide)
    have hskip : (buildProcessRelationships records).skipPids q =
        ((records.foldl buildStep buildInit).skipPids q ||
          decide (q ∈ ((records.foldl buildStep buildInit).children
              (records.foldl buildStep buildInit).proktreePid).filter (fun c =>
            match (records.foldl buildStep buildInit).byPid c with
            | some p => goStartsWith p.command "ps "
            | none => false))) := by
      simp [buildProcessRelationships, h0]
    rw [hskip, Bool.or_eq_true_iff, hfold q, decide_eq_true_eq, List.mem_filter]
    constructor
    · rintro (h | ⟨hmem, hpred⟩)
      · exact Or.inl h
      · refine Or.inr ⟨pk, hlast, by omega, by rw [hpid]; exact hmem, ?_⟩
        cases hbq : (records.foldl buildStep buildInit).byPid q with
        | none => rw [hbq] at hpred; cases hpred
        | some p' =>
          rw [hbq] at hpred
          exact ⟨p', rfl, hpred⟩
    · rintro (h | ⟨pk', hlast', hpos', hmem', p', hbq', hps'⟩)
      · exact Or.inl h
      · obtain rfl : pk' = pk := by rw [hlast'] at hlast; injection hlast
        refine Or.inr ⟨by rw [← hpid]; exact hmem', ?_⟩
        rw [hbq']
        exact hps'
  · have hskip : (buildProcessRelationships records).skipPids q =
        (records.foldl buildStep buildInit).skipPids q := by
      simp [buildProcessRelationships, h0]
    rw [hskip, hfold q]
    constructor
    · exact fun h => Or.inl h
    · rintro (h | ⟨pk', hlast', hpos', _⟩)
      · exact h
      · rw [hpk, hlast'] at h0
        exact absurd hpos' h0

/-! ## C9: purity of the formatters -/

/-- A clock reading one hour after the epoch instant. -/
def clockEnv1 : Env := ⟨⟨3600, 1970, 1, 1, 1, 0⟩, false, false⟩

/-- A clock reading 100 days after the epoch instant, same calendar year. -/
def clockEnv2 : Env := ⟨⟨8640000, 1970, 4, 11, 0, 0⟩, false, false⟩

/-- Counterexample to **C9**: `formatStartTime` reads the real-time clock, so
two calls with the SAME start-time argument return different strings when the
clock has moved across the 24-hour display boundary — it is not a pure
function of its argument. -/
theorem formatStartTime_depends_on_clock :
    formatStartTime clockEnv1 (some ⟨0, 1970, 1, 1, 0, 0⟩) = "00:00" ∧
    formatStartTime clockEnv2 (some ⟨0, 1970, 1, 1, 0, 0⟩) = "Jan01" ∧
    formatStartTime clockEnv1 (some ⟨0, 1970, 1, 1, 0, 0⟩)
      ≠ formatStartTime clockEnv2 (some ⟨0, 1970, 1, 1, 0, 0⟩) :=
  ⟨by decide, by decide, by decide⟩

/-- **C9** (amended): `formatRSS`, `formatCPUTime` and `centerText` are pure
functions of their arguments — their output is independent of the ambient
state (configuration flags and clock); `formatStartTime` is pure only as a
function of its argument AND the current clock reading: with the clock fixed
it is independent of the remaining ambient state, but across clock readings
it can differ (see the counterexample). -/
theorem formatter_purity :
    (∀ (e₁ e₂ : Env) (kb : Rat), formatRSS e₁ kb = formatRSS e₂ kb) ∧
    (∀ (e₁ e₂ : Env) (d : Int), formatCPUTime e₁ d = formatCPUTime e₂ d) ∧
    (∀ (e₁ e₂ : Env) (t : String) (w : Int), centerText e₁ t w = centerText e₂ t w) ∧
    (∀ (n : GoTime) (u₁ c₁ u₂ c₂ : Bool) (t : Option GoTime),
      formatStartTime ⟨n, u₁, c₁⟩ t = formatStartTime ⟨n, u₂, c₂⟩ t) :=
  ⟨fun _ _ _ => rfl, fun _ _ _ => rfl, fun _ _ _ _ => rfl, fun _ _ _ _ _ _ => rfl⟩

/-! ## C2: skip semantics in the renderer -/

theorem kidsLoop_all (P : Int × String → Bool)
    (render : Int → String → Bool → List (Int × String)) (skipPids : Int → Bool)
    (pre : String) (isLast : Bool) (n : Nat)
    (hrender : ∀ c cp l, (render c cp l).all P = true) :
    ∀ (cs : List Int) (printed : Nat),
      (kidsLoop render skipPids pre isLast n cs printed).all P = true := by
  intro cs
  induction cs with
  | nil => intro printed; rfl
  | cons c rest ih =>
    intro printed
    rw [kidsLoop]
    by_cases hsk : skipPids c
    · rw [if_pos hsk]
      exact ih printed
    · rw [if_neg hsk]
      rw [List.all_append]
      exact Bool.and_eq_true_iff.mpr ⟨hrender c _ _, ih (printed + 1)⟩

theorem printProcessTree_not_skipped (ctx : RenderCtx) :
    ∀ (fuel : Nat) (pid : Int) (pre : String) (isLast : Bool),
      (printProcessTree ctx fuel pid pre isLast).all (fun e => !ctx.skipPids e.1) = true := by
  intro fuel
  induction fuel with
  | zero => intro pid pre isLast; rfl
  | succ fuel ih =>
    intro pid pre isLast
    rw [printProcessTree]
    by_cases hsk : ctx.skipPids pid
    · rw [if_pos hsk]; rfl
    · rw [if_neg hsk]
      cases hp : ctx.processes pid with
      | none => rfl
      | some p =>
        simp only [hp]
        rw [List.all_append]
        refine Bool.and_eq_true_iff.mpr ⟨?_, ?_⟩
        · by_cases hd : showOk ctx.pidsToShow pid
          · simp [hd, hsk]
          · simp [hd]
        · exact kidsLoop_all _ _ _ _ _ _ (fun c cp l => ih c cp l) _ 0

theorem hasVisibleChildren_ignores_skipped (skipPids : Int → Bool)
    (shown : Option (List Int)) :
    ∀ cs : List Int,
      hasVisibleChildrenList skipPids shown (cs.filter (fun c => !skipPids c))
        = hasVisibleChildrenList skipPids shown cs := by
  intro cs
  induction cs with
  | nil => rfl
  | cons c rest ih =>
    rw [List.filter_cons]
    by_cases hsk : skipPids c
    · rw [if_neg (by simp [hsk])]
      rw [ih]
      conv_rhs => rw [hasVisibleChildrenList]
      rw [if_pos hsk]
    · rw [if_pos (by simp [hsk])]
      rw [hasVisibleChildrenList]
      conv_rhs => rw [hasVisibleChildrenList]
      rw [if_neg hsk, if_neg hsk]
      by_cases hshow : showOk shown c
      · rw [if_pos hshow, if_pos hshow]
      · rw [if_neg hshow, if_neg hshow]
        exact ih

/-- **C2** (amended): the renderer never emits an output line for a pid in
the skip set, and a skipped child contributes nothing to the "has visible
children" determination (filtering skipped children out of the child list
leaves it unchanged) — but the renderer returns immediately at a skipped
pid, so the ENTIRE subtree below a skipped pid is pruned: its non-skipped
children are not traversed and never appear (skip removes the node and its
whole subtree, not one node). -/
theorem skip_semantics_in_renderer (ctx : RenderCtx) (fuel : Nat) (pid : Int)
    (pre : String) (isLast : Bool) :
    ((printProcessTree ctx fuel pid pre isLast).all (fun e => !ctx.skipPids e.1) = true) ∧
    (ctx.skipPids pid = true → printProcessTree ctx fuel pid pre isLast = []) ∧
    (∀ (shown : Option (List Int)) (cs : List Int),
      hasVisibleChildrenList ctx.skipPids shown (cs.filter (fun c => !ctx.skipPids c))
        = hasVisibleChildrenList ctx.skipPids shown cs) := by
  refine ⟨printProcessTree_not_skipped ctx fuel pid pre isLast, ?_,
    fun shown cs => hasVisibleChildren_ignores_skipped ctx.skipPids shown cs⟩
  intro hsk
  cases fuel with
  | zero => rfl
  | succ fuel => rw [printProcessTree, if_pos hsk]

/-- A three-process chain 1 → 2 → 3 where pid 2 (and only pid 2) is in the
skip set; everything is displayable (`pidsToShow` nil). -/
def skipDemoCtx : RenderCtx :=
  { processes := byPidOfList lineageDemoProcs,
    children := childrenOfList lineageDemoKids,
    skipPids := fun q => q == 2,
    pidsToShow := none,
    maxUserLen := 10, maxStartLen := 5, maxTimeLen := 8, termWidth := 0,
    env := anyEnv }

/-- Counterexample to **C2**: pid 3 is a non-skipped, displayable child of
the skipped pid 2, yet rendering the tree from root 1 emits a line for pid 1
only — the renderer never traverses below the skipped pid 2, so pid 3 cannot
appear, contradicting "its own children are still traversed and may
themselves be visible (skip removes one node, not its subtree)". -/
theorem renderer_prunes_subtree_of_skipped_pid :
    skipDemoCtx.skipPids 2 = true ∧
    skipDemoCtx.skipPids 3 = false ∧
    (3 : Int) ∈ skipDemoCtx.children 2 ∧
    showOk skipDemoCtx.pidsToShow 3 = true ∧
    (printProcessTree skipDemoCtx 5 1 "" true).map Prod.fst = [1] :=
  ⟨by decide, by decide, by decide, by decide, by decide⟩

/-- Witness for the amended C2: at the skipped pid 2 the renderer emits
nothing at all. -/
theorem skip_semantics_in_renderer_witness :
    skipDemoCtx.skipPids 2 = true ∧ printProcessTree skipDemoCtx 3 2 "" true = [] :=
  ⟨by decide, (skip_semantics_in_renderer skipDemoCtx 3 2 "" true).2.1 (by decide)⟩

/-! ## C10: the display set is upward-closed -/

theorem lastWithPid_eq_none (x : Int) :
    ∀ ps : List Process, x ∉ ps.map (·.pid) → lastWithPid x ps = none := by
  intro ps
  induction ps with
  | nil => intro _; rfl
  | cons p rest ih =>
    intro hx
    rw [List.map_cons, List.mem_cons] at hx
    push_neg at hx
    rw [lastWithPid, ih hx.2]
    rw [if_neg (by simp; exact fun h => hx.1 h.symm)]

theorem lastWithPid_nodup :
    ∀ (records : List Process), (records.map (·.pid)).Nodup →
      ∀ r ∈ records, lastWithPid r.pid records = some r := by
  intro records
  induction records with
  | nil => intro _ r hr; cases hr
  | cons p rest ih =>
    intro hnd r hr
    rw [List.map_cons, List.nodup_cons] at hnd
    rcases List.mem_cons.mp hr with rfl | hmem
    · rw [lastWithPid, lastWithPid_eq_none r.pid rest hnd.1]
      simp
    · rw [lastWithPid, ih hnd.2 r hmem]

theorem byPid_of_nodup (records : List Process)
    (hnd : (records.map (·.pid)).Nodup) (r : Process) (hr : r ∈ records) :
    (buildProcessRelationships records).byPid r.pid = some r := by
  rw [buildRel_byPid_eq, buildFold_byPid records buildInit r.pid,
    lastWithPid_nodup records hnd r hr]

theorem buildRel_children_mem (records : List Process) (x c : Int) :
    c ∈ (buildProcessRelationships records).children x ↔
      ∃ p ∈ records, p.pid = c ∧ p.ppid = x ∧ 0 < p.ppid := by
  rw [buildRel_children_eq, buildFold_children records buildInit x]
  simp only [buildInit, List.nil_append, List.mem_map, List.mem_filter,
    Bool.and_eq_true, decide_eq_true_eq, beq_iff_eq]
  constructor
  · rintro ⟨p, ⟨hp, hpp, hppx⟩, rfl⟩
    exact ⟨p, hp, rfl, hppx, hpp⟩
  · rintro ⟨p, hp, rfl, hppx, hpp⟩
    exact ⟨p, ⟨hp, hpp, hppx⟩, rfl⟩

/-- **C10**: for records with pairwise distinct pids, the display set
produced by the closure expansion over the built relationship maps is
upward-closed — if a pid is displayed and its record is present in `byPid`
with a positive `ppid`, then its parent pid is displayed too (so the
renderer's check of direct children against the display set cannot miss a
deeper displayable descendant). -/
theorem display_set_upward_closed (records : List Process)
    (hnd : (records.map (·.pid)).Nodup) (fuel : Nat) (matching S : List Int)
    (hexp : expandToAncestorsAndDescendants (buildProcessRelationships records).byPid
      (buildProcessRelationships records).children fuel matching = some S)
    (pid : Int) (p : Process) (hmem : pid ∈ S)
    (hby : (buildProcessRelationships records).byPid pid = some p)
    (hpp : 0 < p.ppid) :
    p.ppid ∈ S := by
  set byPid := (buildProcessRelationships records).byPid with hbydef
  set children := (buildProcessRelationships records).children with hchdef
  rw [expandToAncestorsAndDescendants] at hexp
  have hchar := expandAll_mem byPid children fuel matching [] S hexp
  have hstep : parentRel byPid pid p.ppid := ⟨p, hby, rfl, hpp⟩
  rcases (hchar pid).mp hmem with hnil | ⟨m, hm, hcase⟩
  · cases hnil
  rcases hcase with htg | hrtg
  · exact (hchar p.ppid).mpr (Or.inr ⟨m, hm, Or.inl (Relation.TransGen.tail htg hstep)⟩)
  · rcases Relation.reflTransGen_iff_eq_or_transGen.mp hrtg with rfl | htg'
    · exact (hchar p.ppid).mpr (Or.inr ⟨pid, hm, Or.inl (Relation.TransGen.single hstep)⟩)
    · obtain ⟨x, hx, hedge⟩ := Relation.TransGen.tail'_iff.mp htg'
      obtain ⟨p', hp', hppid, hpx, _⟩ := (buildRel_children_mem records x pid).mp hedge
      have hbp' : byPid p'.pid = some p' := byPid_of_nodup records hnd p' hp'
      rw [hppid] at hbp'
      rw [hby] at hbp'
      injection hbp' with hpe
      subst hpe
      rw [hpx]
      exact (hchar x).mpr (Or.inr ⟨m, hm, Or.inr hx⟩)

/-- Witness for C10: on the built chain 1 ← 2 ← 3 with match `{2}`, pid 2 is
displayed, its record's parent is pid 1, and 1 is displayed as well. -/
theorem display_set_upward_closed_witness :
    ((lineageDemoProcs.map (·.pid)).Nodup ∧
      expandToAncestorsAndDescendants (buildProcessRelationships lineageDemoProcs).byPid
        (buildProcessRelationships lineageDemoProcs).children 10 [2] = some [3, 1, 2] ∧
      (2 : Int) ∈ ([3, 1, 2] : List Int) ∧
      (buildProcessRelationships lineageDemoProcs).byPid 2
        = some ⟨2, 1, "root", 0, 0, 0, none, 0, "two"⟩) ∧
    (1 : Int) ∈ ([3, 1, 2] : List Int) :=
  ⟨⟨by decide, by decide, by decide, by decide⟩,
    display_set_upward_closed lineageDemoProcs (by decide) 10 [2] [3, 1, 2] (by decide)
      2 ⟨2, 1, "root", 0, 0, 0, none, 0, "two"⟩ (by decide) (by decide) (by decide)⟩
